import Mathlib

/-!
# Verification of the PocketSDR fundamental GNSS SDR functions

A shallow embedding of `src/sdr_func.c` (Pocket SDR C library, fundamental
GNSS SDR functions) together with proofs about the embedded definitions.

Modelling conventions:
* C `double`/`float` values are modelled as real numbers (`ℝ`); the source's
  floating-point arithmetic is idealised as exact real arithmetic, and the
  `PI` constant of the source is modelled as the real number `π`.
* Machine integers are modelled as `ℕ`/`ℤ` with explicit `% 2^32` where the
  source relies on unsigned 32-bit wrap-around.
* The C cast `(uint32_t)x` of a nonnegative `double` is modelled as
  `⌊x⌋.toNat % 2^32` (truncation followed by 32-bit wrap-around).
* Arrays are modelled as functions `ℕ → _` (reads at the indices the source
  actually touches) or as `List`s for produced output windows.
* The scalar reference loops of the source are embedded; the `#ifdef AVX2`
  SIMD paths are compile-time-optional alternatives to those loops and are
  not part of the embedding.
-/

namespace PocketSDR

/-- The `NTBL` constant of the source (`#define NTBL 256`). -/
def NTBL : ℕ := 256

/-- The `CSCALE` constant of the source (`#define CSCALE 10.0f`), as a real. -/
noncomputable def CSCALE : ℝ := 10

/-- The `MAX_FFTW_PLAN` constant of the source (`#define MAX_FFTW_PLAN 32`). -/
def MAX_FFTW_PLAN : ℕ := 32

/-- The 16-bit complex sample `sdr_cpx16_t` (pair of signed 16-bit ints, I and Q);
the values produced by the source fit comfortably, so we use `ℤ`. -/
structure SdrCpx16 where
  I : ℤ
  Q : ℤ
  deriving DecidableEq, Repr

/-- IF data buffer `sdr_buff_t`: `N` samples of packed 8-bit complex data
(each a byte value `< 256`) plus the sampling type `IQ`. -/
structure SdrBuff where
  N : ℕ
  IQ : ℕ
  data : ℕ → ℕ

/-- Modelled from the spec: the `SDR_CPX8_I` macro of `pocket_sdr.h` (header
not part of the sources), extracting the signed 4-bit I field from the low
nibble of a packed sample byte (spec section 3: "one byte holding two signed
4-bit fields, I in the low nibble and Q in the high nibble, each in the range
[−8, +7]"). -/
def SDR_CPX8_I (b : ℕ) : ℤ :=
  let v := b % 16
  if v < 8 then (v : ℤ) else (v : ℤ) - 16

/-- Modelled from the spec: the `SDR_CPX8_Q` macro of `pocket_sdr.h` (header
not part of the sources), extracting the signed 4-bit Q field from the high
nibble of a packed sample byte. -/
def SDR_CPX8_Q (b : ℕ) : ℤ :=
  let v := b / 16 % 16
  if v < 8 then (v : ℤ) else (v : ℤ) - 16

/-- The source's `ROUND` macro: `#define ROUND(x) floor(x + 0.5)`. -/
noncomputable def cROUND (x : ℝ) : ℤ := ⌊x + 1/2⌋

/-- Carrier I component of the mixer LUT initialisation in `sdr_func_init`:
`(int8_t)ROUND(cos(-2.0 * PI * i / NTBL) * CSCALE)`.  The value lies in
`[-10, 10]`, so the `int8_t` cast is the identity. -/
noncomputable def carr_I (i : ℕ) : ℤ := cROUND (Real.cos (-2 * Real.pi * i / NTBL) * CSCALE)

/-- Carrier Q component of the mixer LUT initialisation in `sdr_func_init`:
`(int8_t)ROUND(sin(-2.0 * PI * i / NTBL) * CSCALE)`. -/
noncomputable def carr_Q (i : ℕ) : ℤ := cROUND (Real.sin (-2 * Real.pi * i / NTBL) * CSCALE)

/-- The carrier-mixed-data LUT `mix_tbl`, as filled by `sdr_func_init`:
`mix_tbl[(j << 8) + i] = (I*carr_I - Q*carr_Q, I*carr_Q + Q*carr_I)` where
`I = SDR_CPX8_I(j)`, `Q = SDR_CPX8_Q(j)`, for byte `j` and phase index `i`.
An index `idx = (j << 8) + i` with `i < 256` decomposes as `j = idx / 256`,
`i = idx % 256`. -/
noncomputable def mix_tbl (idx : ℕ) : SdrCpx16 :=
  { I := SDR_CPX8_I (idx / 256) * carr_I (idx % 256) - SDR_CPX8_Q (idx / 256) * carr_Q (idx % 256)
    Q := SDR_CPX8_I (idx / 256) * carr_Q (idx % 256) + SDR_CPX8_Q (idx / 256) * carr_I (idx % 256) }

/-- The C cast `(uint32_t)x` applied to a (nonnegative) `double`: truncation
toward zero followed by reduction modulo `2^32`. -/
noncomputable def castU32 (x : ℝ) : ℕ := (⌊x⌋).toNat % 2 ^ 32

/-- The C `fmod(x, 1.0)`: `x - trunc(x)`, which keeps the sign of `x`. -/
noncomputable def cFmod1 (x : ℝ) : ℝ := if 0 ≤ x then Int.fract x else -Int.fract (-x)

/-- The scalar loop body of `mix_carr`: starting from 32-bit phase
accumulator `p` and step `s`, emit `n` table lookups
`IQ[i] = mix_tbl[((int)data[i] << 8) + (p >> 24)]`, with `p += s` in
unsigned 32-bit arithmetic after each sample. -/
noncomputable def mix_carr_rec (data : ℕ → ℕ) (ix p s : ℕ) : ℕ → List SdrCpx16
  | 0 => []
  | n + 1 =>
    mix_tbl (data ix * 256 + p >>> 24) :: mix_carr_rec data (ix + 1) ((p + s) % 2 ^ 32) s n

/-- Embedding of `mix_carr` (static, scalar reference path): converts the already-scaled
phase `phi` and phase step `step` to 32-bit fixed point
(`p = (uint32_t)(phi * 2^24)`, `s = (uint32_t)(step * 2^24)`) and runs the
lookup loop over `N` samples starting at buffer index `ix`. -/
noncomputable def mix_carr (buff : SdrBuff) (ix N : ℕ) (phi step : ℝ) : List SdrCpx16 :=
  mix_carr_rec buff.data ix (castU32 (phi * 2 ^ 24)) (castU32 (step * 2 ^ 24)) N

/-- Embedding of `sdr_mix_carr`: computes `step = fc / fs * NTBL` and
`phi = fmod(phi, 1.0) * NTBL`, then either mixes the contiguous window
`[ix, ix+N)` or, when `ix + N` exceeds the buffer length, splits into two
`mix_carr` passes with the second starting at phase `phi + step * n`. -/
noncomputable def sdr_mix_carr (buff : SdrBuff) (ix N : ℕ) (fs fc phi : ℝ) : List SdrCpx16 :=
  let step := fc / fs * NTBL
  let phi' := cFmod1 phi * NTBL
  if ix + N ≤ buff.N then
    mix_carr buff ix N phi' step
  else
    let n := buff.N - ix
    mix_carr buff ix n phi' step ++ mix_carr buff 0 (N - n) (phi' + step * n) step

/-- The scalar accumulation loop of `dot_IQ_code`: the float accumulators
`(*c)[0]`, `(*c)[1]` gather `IQ[i].I * code[i].I` and `IQ[i].Q * code[i].Q`
over `i < N`. -/
noncomputable def dot_acc (IQ code : ℕ → SdrCpx16) : ℕ → ℝ × ℝ
  | 0 => (0, 0)
  | n + 1 =>
    let c := dot_acc IQ code n
    (c.1 + (IQ n).I * (code n).I, c.2 + (IQ n).Q * (code n).Q)

/-- Embedding of `dot_IQ_code` (static, scalar reference path): inner product of `N`
mixed samples with the code replica, with the two channels accumulated
independently and finally scaled by `s / CSCALE`. -/
noncomputable def dot_IQ_code (IQ code : ℕ → SdrCpx16) (N : ℕ) (s : ℝ) : ℝ × ℝ :=
  let c := dot_acc IQ code N
  (c.1 * (s / CSCALE), c.2 * (s / CSCALE))

/-- Embedding of `corr_std` (static): evaluates `dot_IQ_code` at each code-offset tap of
`pos`.  For `pos[i] > 0` it correlates `IQ + pos[i]` with `code` over
`M = N - pos[i]` samples at scale `1/M`; for `pos[i] < 0` it correlates `IQ`
with `code - pos[i]` over `M = N + pos[i]` samples at scale `1/M`; for
`pos[i] = 0` it uses the full length `N` at scale `1/N`. -/
noncomputable def corr_std (IQ code : ℕ → SdrCpx16) (N : ℕ) (pos : List ℤ) : List (ℝ × ℝ) :=
  pos.map fun p =>
    if 0 < p then
      let M := N - p.toNat
      dot_IQ_code (fun k => IQ (p.toNat + k)) code M (1 / M)
    else if p < 0 then
      let M := N - (-p).toNat
      dot_IQ_code IQ (fun k => code ((-p).toNat + k)) M (1 / M)
    else
      dot_IQ_code IQ code N (1 / N)

/-- Loop state of `sdr_corr_max`: running maximum, running mean, visit
counter `n`, and the caller-owned index pair `ix` (C `int`s, hence `ℤ`). -/
structure CorrMaxState where
  P_max : ℝ
  P_ave : ℝ
  n : ℕ
  ix : ℤ × ℤ

/-- One inner-loop iteration of `sdr_corr_max` at cell `(i, j)`:
`P_ave += (P[i*N+j] - P_ave) / ++n`, then if `P[i*N+j] > P_max` update
`P_max` and store `(i, j)` into `ix`. -/
noncomputable def corr_max_step (P : ℕ → ℝ) (N : ℕ) (st : CorrMaxState) (c : ℕ × ℕ) :
    CorrMaxState :=
  let v := P (c.1 * N + c.2)
  let ave := st.P_ave + (v - st.P_ave) / (st.n + 1)
  if v ≤ st.P_max then
    { P_max := st.P_max, P_ave := ave, n := st.n + 1, ix := st.ix }
  else
    { P_max := v, P_ave := ave, n := st.n + 1, ix := (c.1, c.2) }

/-- The row-major scan order of `sdr_corr_max`: all `(i, j)` with
`i ∈ [0, M)` outer and `j ∈ [0, Nmax)` inner. -/
def scanOrder (M Nmax : ℕ) : List (ℕ × ℕ) :=
  (List.range M).flatMap fun i => (List.range Nmax).map fun j => (i, j)

/-- Embedding of `sdr_corr_max`: scans `P[i][j]` for `i ∈ [0, M)`, `j ∈ [0, Nmax)` over a
grid of row stride `N`, maintaining the running maximum (updating `ix` only
on strict increase; `P_max` starts at `0`) and the running incremental mean,
and returns `10 * log10((P_max - P_ave) / P_ave / T)` if `P_ave > 0`, else
`0`, together with the final contents of the caller's `ix`. -/
noncomputable def sdr_corr_max (P : ℕ → ℝ) (N Nmax M : ℕ) (T : ℝ) (ix : ℤ × ℤ) :
    ℝ × (ℤ × ℤ) :=
  let st := (scanOrder M Nmax).foldl (corr_max_step P N) ⟨0, 0, 0, ix⟩
  (if st.P_ave > 0 then 10 * Real.logb 10 ((st.P_max - st.P_ave) / st.P_ave / T) else 0, st.ix)

/-- Modelled from the spec: `poly_fit` for the 3-point quadratic case.  The
source builds the Vandermonde matrix of the three abscissae and calls the
external `lsq` solver of `rtklib` (not among the sources); per spec section
4.9 the least-squares fit of a quadratic through three points is the Lagrange
interpolant, and the fit fails exactly when the Vandermonde matrix is
degenerate (zero determinant).  Returns the coefficients `(p0, p1, p2)` of
`p0 + p1*x + p2*x^2`. -/
noncomputable def poly_fit (x y : ℕ → ℝ) : Option (ℝ × ℝ × ℝ) :=
  if (x 1 - x 0) * (x 2 - x 0) * (x 2 - x 1) = 0 then none
  else
    some (y 0 * x 1 * x 2 / ((x 0 - x 1) * (x 0 - x 2)) +
            y 1 * x 0 * x 2 / ((x 1 - x 0) * (x 1 - x 2)) +
            y 2 * x 0 * x 1 / ((x 2 - x 0) * (x 2 - x 1)),
          -(y 0 * (x 1 + x 2) / ((x 0 - x 1) * (x 0 - x 2)) +
            y 1 * (x 0 + x 2) / ((x 1 - x 0) * (x 1 - x 2)) +
            y 2 * (x 0 + x 1) / ((x 2 - x 0) * (x 2 - x 1))),
          y 0 / ((x 0 - x 1) * (x 0 - x 2)) + y 1 / ((x 1 - x 0) * (x 1 - x 2)) +
            y 2 / ((x 2 - x 0) * (x 2 - x 1)))

/-- Embedding of `sdr_fine_dop`: if the Doppler index `ix.1` is at either end of the bin
array the bin value is returned unchanged; otherwise a quadratic is fitted
through the three neighbouring `(fds, P)` points and the vertex
`-p1 / (2 * p2)` is returned, falling back to the bin value when the fit
fails. -/
noncomputable def sdr_fine_dop (P : ℕ → ℝ) (N : ℕ) (fds : ℕ → ℝ) (len_fds : ℕ)
    (ix : ℕ × ℕ) : ℝ :=
  if ix.1 = 0 ∨ ix.1 = len_fds - 1 then fds ix.1
  else
    match poly_fit (fun i => fds (ix.1 - 1 + i)) (fun i => P ((ix.1 - 1 + i) * N + ix.2)) with
    | none => fds ix.1
    | some (_, p1, p2) => -p1 / (2 * p2)

/-- The `DOP_STEP` constant of the source (`#define DOP_STEP 0.5`). -/
noncomputable def DOP_STEP : ℝ := 1 / 2

/-- Embedding of `sdr_dop_bins`: Doppler search bin grid.  `step = DOP_STEP / T`,
`len_fds = (int)(2.0 * max_dop / step) + 1`, `fds[i] = dop - max_dop + i * step`.
The `(int)` cast truncates; for the nonnegative values of the intended regime
this is the floor. -/
noncomputable def sdr_dop_bins (T : ℝ) (dop max_dop : ℝ) : List ℝ :=
  let step := DOP_STEP / T
  let len_fds := (⌊2 * max_dop / step⌋).toNat + 1
  (List.range len_fds).map fun i : ℕ => dop - max_dop + i * step

/-- The slot-scan loop of `get_fftw_plan` over the `fftw_size` table: an
empty slot (`0`) encountered first is filled with `N` (constructing the plan
pair), and a slot holding `N` returns success; if the scan falls off the end
of the table the lookup fails.  Returns the success flag and the updated
table. -/
def gfp_scan (N : ℕ) : List ℕ → Bool × List ℕ
  | [] => (false, [])
  | sz :: rest =>
    let sz' := if sz = 0 then N else sz
    if sz' = N then (true, sz' :: rest)
    else
      let r := gfp_scan N rest
      (r.1, sz' :: r.2)

/-- Embedding of `get_fftw_plan`: lookup/lazy creation of the DFT plan pair for length `N`
in the plan cache, whose state is the list of the `MAX_FFTW_PLAN` slot sizes.
On table-full miss it fails (the source logs "fftw plan buffer overflow"). -/
def get_fftw_plan (N : ℕ) (sizes : List ℕ) : Bool × List ℕ := gfp_scan N sizes

/-- Modelled from the spec: the external FFT facility's forward transform
(spec section 6: single-precision complex-to-complex 1-D DFT executed via
`fftwf_execute_dft`), as the unnormalised mathematical DFT of length `N`. -/
noncomputable def dft (N : ℕ) (x : ℕ → ℂ) (k : ℕ) : ℂ :=
  ∑ n ∈ Finset.range N, x n * Complex.exp (-2 * Real.pi * Complex.I * k * n / N)

/-- Modelled from the spec: the external FFT facility's backward transform
(unnormalised inverse DFT, FFTW's `FFTW_BACKWARD` convention). -/
noncomputable def idft (N : ℕ) (X : ℕ → ℂ) (n : ℕ) : ℂ :=
  ∑ k ∈ Finset.range N, X k * Complex.exp (2 * Real.pi * Complex.I * k * n / N)

/-- Embedding of `corr_fft` (static): obtains the plan pair for length `N` from the cache
(returning with `corr` untouched if that fails), converts the mixed samples
to floats `x[i] = (IQ[i].I / CSCALE, IQ[i].Q / CSCALE)`, and computes
`corr = ifft(fft(x) * code_fft) / N^2`, writing all `N` cells of the
caller's output.  The result pairs the output array with the updated plan
cache state. -/
noncomputable def corr_fft (IQ : ℕ → SdrCpx16) (code_fft : ℕ → ℂ) (N : ℕ)
    (corr : ℕ → ℂ) (sizes : List ℕ) : (ℕ → ℂ) × List ℕ :=
  let r := get_fftw_plan N sizes
  if r.1 = false then (corr, r.2)
  else
    let x : ℕ → ℂ := fun i => Complex.ofReal ((IQ i).I / CSCALE) +
      Complex.ofReal ((IQ i).Q / CSCALE) * Complex.I
    (fun j => if j < N then idft N (fun k => dft N x k * code_fft k * (1 / (N : ℂ) ^ 2)) j
              else corr j,
     r.2)

/-!
## Verified enclosures for the carrier LUT values

The LUT initialisation rounds `cos(-2πp/256)·CSCALE` and `sin(-2πp/256)·CSCALE`
with `floor(x + 0.5)`.  To evaluate those roundings (and to compare them with
half-away-from-zero rounding) we compute, for every phase index `p < 256`,
a rational enclosure of `cos(p·π/128)` and `sin(p·π/128)` in 28-bit fixed
point, by rotating a verified enclosure of `(cos(π/128), sin(π/128))`. -/

/-- Fixed-point scale of the enclosures. -/
def iscale : ℤ := 2 ^ 28

/-- An integer interval `[lo/iscale, hi/iscale]`. -/
structure Itv where
  lo : ℤ
  hi : ℤ
  deriving DecidableEq, Repr

/-- Membership: `x` is enclosed by the scaled interval `I`. -/
def Itv.mem (I : Itv) (x : ℝ) : Prop := (I.lo : ℝ) ≤ x * iscale ∧ x * iscale ≤ (I.hi : ℝ)

/-- Floor division by the scale (`Int` division is Euclidean, which for the
positive divisor `iscale` is the floor). -/
def idivF (m : ℤ) : ℤ := m / iscale

/-- Ceiling division by the scale. -/
def idivC (m : ℤ) : ℤ := -(-m / iscale)

/-- Outward-rounded interval product. -/
def Itv.mul (a b : Itv) : Itv :=
  let c1 := a.lo * b.lo
  let c2 := a.lo * b.hi
  let c3 := a.hi * b.lo
  let c4 := a.hi * b.hi
  ⟨idivF (min (min c1 c2) (min c3 c4)), idivC (max (max c1 c2) (max c3 c4))⟩

/-- Exact interval difference. -/
def Itv.sub (a b : Itv) : Itv := ⟨a.lo - b.hi, a.hi - b.lo⟩

/-- Exact interval sum. -/
def Itv.add (a b : Itv) : Itv := ⟨a.lo + b.lo, a.hi + b.hi⟩

/-- Verified enclosure of `cos (π/128)` at scale `2^28`. -/
def cos1Itv : Itv := ⟨268354599, 268354610⟩

/-- Verified enclosure of `sin (π/128)` at scale `2^28`. -/
def sin1Itv : Itv := ⟨6587729, 6587742⟩

/-- One rotation of a `(cos, sin)` enclosure pair by the angle `π/128`. -/
def mixStep (cs : Itv × Itv) : Itv × Itv :=
  ((cs.1.mul cos1Itv).sub (cs.2.mul sin1Itv), (cs.2.mul cos1Itv).add (cs.1.mul sin1Itv))

/-- Enclosures of `(cos (p·π/128), sin (p·π/128))` for every `p`. -/
def mixChain : ℕ → Itv × Itv
  | 0 => (⟨iscale, iscale⟩, ⟨0, 0⟩)
  | p + 1 => mixStep (mixChain p)

/-- Nearest-integer candidate for a value enclosed by `[ylo, yhi] / iscale`. -/
def nearInt (ylo yhi : ℤ) : ℤ := (ylo + yhi + iscale) / (2 * iscale)

/-- Checks that the enclosure `[ylo, yhi] / iscale` lies strictly inside
`(m - 1/2, m + 1/2)` for `m = nearInt ylo yhi`; in that case every enclosed
value rounds to `m` under both half-up and half-away-from-zero rounding. -/
def strictIn (ylo yhi : ℤ) : Bool :=
  decide ((2 * nearInt ylo yhi - 1) * iscale < 2 * ylo) &&
  decide (2 * yhi < (2 * nearInt ylo yhi + 1) * iscale)

/-- Scaled enclosure of `cos(p·π/128) * CSCALE`. -/
def lutIbounds (p : ℕ) : ℤ × ℤ := (10 * (mixChain p).1.lo, 10 * (mixChain p).1.hi)

/-- Scaled enclosure of `-sin(p·π/128) * CSCALE`. -/
def lutQbounds (p : ℕ) : ℤ × ℤ := (-(10 * (mixChain p).2.hi), -(10 * (mixChain p).2.lo))

/-- Computed value of the carrier I component at phase index `p`. -/
def lutI (p : ℕ) : ℤ := nearInt (lutIbounds p).1 (lutIbounds p).2

/-- Computed value of the carrier Q component at phase index `p`. -/
def lutQ (p : ℕ) : ℤ := nearInt (lutQbounds p).1 (lutQbounds p).2

/-- Both carrier components are certified by the enclosure pair `cs`. -/
def lutOkAtCs (cs : Itv × Itv) : Bool :=
  strictIn (10 * cs.1.lo) (10 * cs.1.hi) && strictIn (-(10 * cs.2.hi)) (-(10 * cs.2.lo))

/-- Both carrier components at phase `p` are certified by their enclosures. -/
def lutOkAt (p : ℕ) : Bool := lutOkAtCs (mixChain p)

/-- Single forward pass certifying `n` consecutive phases starting from the
enclosure pair `cs`. -/
def lutChainOk : ℕ → Itv × Itv → Bool
  | 0, _ => true
  | n + 1, cs => lutOkAtCs cs && lutChainOk n (mixStep cs)

/-- Rounding to the nearest integer with ties going away from zero
(the rounding named by the specification's LUT description). -/
noncomputable def roundAwayZero (x : ℝ) : ℤ := if 0 ≤ x then ⌊x + 1 / 2⌋ else -⌊-x + 1 / 2⌋

/-- Claim-side carrier I component: `cos(-2πp/256) * CSCALE` rounded
half-away-from-zero. -/
noncomputable def cI_spec (p : ℕ) : ℤ := roundAwayZero (Real.cos (-2 * Real.pi * p / NTBL) * CSCALE)

/-- Claim-side carrier Q component: `sin(-2πp/256) * CSCALE` rounded
half-away-from-zero. -/
noncomputable def cQ_spec (p : ℕ) : ℤ := roundAwayZero (Real.sin (-2 * Real.pi * p / NTBL) * CSCALE)

/-- The buffer of the C1 counterexample: two samples, both the byte `0x01`
(I = 1, Q = 0). -/
def cxBuff : SdrBuff := ⟨2, 1, fun _ => 1⟩

/-- Doppler bins of the C8 concrete example: `{100, 200, 300}` Hz. -/
noncomputable def fds8 : ℕ → ℝ := fun i => 100 + 100 * i

/-- Power values of the C8 concrete example along the Doppler axis:
`{1, 4, 3}`. -/
noncomputable def P8 : ℕ → ℝ :=
  fun k => if k = 0 then 1 else if k = 1 then 4 else if k = 2 then 3 else 0

theorem iscale_pos : (0 : ℤ) < iscale := by decide

theorem idivF_le (m : ℤ) : idivF m * iscale ≤ m := by
  have h := Int.ediv_add_emod m iscale
  have hr : 0 ≤ m % iscale := Int.emod_nonneg m (by decide)
  unfold idivF
  linarith [h, hr]

theorem le_idivC (m : ℤ) : m ≤ idivC m * iscale := by
  have h := idivF_le (-m)
  unfold idivC
  unfold idivF at h
  linarith

theorem mul_corners {al ah bl bh u v : ℝ} (h1 : al ≤ u) (h2 : u ≤ ah)
    (h3 : bl ≤ v) (h4 : v ≤ bh) :
    min (min (al * bl) (al * bh)) (min (ah * bl) (ah * bh)) ≤ u * v ∧
    u * v ≤ max (max (al * bl) (al * bh)) (max (ah * bl) (ah * bh)) := by
  constructor
  · rcases le_total 0 v with hv | hv
    · have huv : al * v ≤ u * v := mul_le_mul_of_nonneg_right h1 hv
      rcases le_total 0 al with hal | hal
      · have hc : al * bl ≤ al * v := mul_le_mul_of_nonneg_left h3 hal
        have : min (min (al * bl) (al * bh)) (min (ah * bl) (ah * bh)) ≤ al * bl :=
          (min_le_left _ _).trans (min_le_left _ _)
        linarith
      · have hc : al * bh ≤ al * v := mul_le_mul_of_nonpos_left h4 hal
        have : min (min (al * bl) (al * bh)) (min (ah * bl) (ah * bh)) ≤ al * bh :=
          (min_le_left _ _).trans (min_le_right _ _)
        linarith
    · have huv : ah * v ≤ u * v := mul_le_mul_of_nonpos_right h2 hv
      rcases le_total 0 ah with hah | hah
      · have hc : ah * bl ≤ ah * v := mul_le_mul_of_nonneg_left h3 hah
        have : min (min (al * bl) (al * bh)) (min (ah * bl) (ah * bh)) ≤ ah * bl :=
          (min_le_right _ _).trans (min_le_left _ _)
        linarith
      · have hc : ah * bh ≤ ah * v := mul_le_mul_of_nonpos_left h4 hah
        have : min (min (al * bl) (al * bh)) (min (ah * bl) (ah * bh)) ≤ ah * bh :=
          (min_le_right _ _).trans (min_le_right _ _)
        linarith
  · rcases le_total 0 v with hv | hv
    · have huv : u * v ≤ ah * v := mul_le_mul_of_nonneg_right h2 hv
      rcases le_total 0 ah with hah | hah
      · have hc : ah * v ≤ ah * bh := mul_le_mul_of_nonneg_left h4 hah
        have : ah * bh ≤ max (max (al * bl) (al * bh)) (max (ah * bl) (ah * bh)) :=
          (le_max_right _ _).trans (le_max_right _ _)
        linarith
      · have hc : ah * v ≤ ah * bl := mul_le_mul_of_nonpos_left h3 hah
        have : ah * bl ≤ max (max (al * bl) (al * bh)) (max (ah * bl) (ah * bh)) :=
          (le_max_left _ _).trans (le_max_right _ _)
        linarith
    · have huv : u * v ≤ al * v := mul_le_mul_of_nonpos_right h1 hv
      rcases le_total 0 al with hal | hal
      · have hc : al * v ≤ al * bh := mul_le_mul_of_nonneg_left h4 hal
        have : al * bh ≤ max (max (al * bl) (al * bh)) (max (ah * bl) (ah * bh)) :=
          (le_max_right _ _).trans (le_max_left _ _)
        linarith
      · have hc : al * v ≤ al * bl := mul_le_mul_of_nonpos_left h3 hal
        have : al * bl ≤ max (max (al * bl) (al * bh)) (max (ah * bl) (ah * bh)) :=
          (le_max_left _ _).trans (le_max_left _ _)
        linarith

theorem Itv.mem_mul {a b : Itv} {x y : ℝ} (ha : a.mem x) (hb : b.mem y) :
    (a.mul b).mem (x * y) := by
  obtain ⟨ha1, ha2⟩ := ha
  obtain ⟨hb1, hb2⟩ := hb
  have hc := mul_corners ha1 ha2 hb1 hb2
  have hS : (0 : ℝ) < (iscale : ℝ) := by
    exact_mod_cast iscale_pos
  have hxy : x * iscale * (y * iscale) = (x * y * iscale) * iscale := by ring
  constructor
  · have hlo : ((a.mul b).lo * iscale : ℤ) ≤
        min (min (a.lo * b.lo) (a.lo * b.hi)) (min (a.hi * b.lo) (a.hi * b.hi)) :=
      idivF_le _
    have hlo' : (((a.mul b).lo * iscale : ℤ) : ℝ) ≤
        ((min (min (a.lo * b.lo) (a.lo * b.hi)) (min (a.hi * b.lo) (a.hi * b.hi)) : ℤ) : ℝ) := by
      exact_mod_cast hlo
    have hmin : ((min (min (a.lo * b.lo) (a.lo * b.hi)) (min (a.hi * b.lo) (a.hi * b.hi)) : ℤ) : ℝ) ≤
        x * iscale * (y * iscale) := by
      push_cast [Int.cast_min]
      exact hc.1
    rw [hxy] at hmin
    have := hlo'.trans hmin
    push_cast at this ⊢
    nlinarith [this, hS]
  · have hhi : max (max (a.lo * b.lo) (a.lo * b.hi)) (max (a.hi * b.lo) (a.hi * b.hi)) ≤
        (a.mul b).hi * iscale := le_idivC _
    have hhi' : ((max (max (a.lo * b.lo) (a.lo * b.hi)) (max (a.hi * b.lo) (a.hi * b.hi)) : ℤ) : ℝ) ≤
        (((a.mul b).hi * iscale : ℤ) : ℝ) := by
      exact_mod_cast hhi
    have hmax : x * iscale * (y * iscale) ≤
        ((max (max (a.lo * b.lo) (a.lo * b.hi)) (max (a.hi * b.lo) (a.hi * b.hi)) : ℤ) : ℝ) := by
      push_cast [Int.cast_max]
      exact hc.2
    rw [hxy] at hmax
    have := hmax.trans hhi'
    push_cast at this ⊢
    nlinarith [this, hS]

theorem Itv.mem_sub {a b : Itv} {x y : ℝ} (ha : a.mem x) (hb : b.mem y) :
    (a.sub b).mem (x - y) := by
  obtain ⟨ha1, ha2⟩ := ha
  obtain ⟨hb1, hb2⟩ := hb
  unfold Itv.sub Itv.mem
  push_cast
  constructor <;> nlinarith

theorem Itv.mem_add {a b : Itv} {x y : ℝ} (ha : a.mem x) (hb : b.mem y) :
    (a.add b).mem (x + y) := by
  obtain ⟨ha1, ha2⟩ := ha
  obtain ⟨hb1, hb2⟩ := hb
  unfold Itv.add Itv.mem
  push_cast
  constructor <;> nlinarith

theorem pi128_bounds :
    (3141592 / 1000000 / 128 : ℝ) ≤ Real.pi / 128 ∧
    Real.pi / 128 ≤ (3141593 / 1000000 / 128 : ℝ) := by
  have h1 := Real.pi_gt_3141592
  have h2 := Real.pi_lt_3141593
  constructor <;> [linarith; linarith]

theorem cos1Itv_mem : cos1Itv.mem (Real.cos (Real.pi / 128)) := by
  obtain ⟨hl, hu⟩ := pi128_bounds
  set a := Real.pi / 128 with ha
  have hapos : 0 < a := by positivity
  have habs : |a| ≤ 1 := by
    rw [abs_of_pos hapos]
    linarith
  have hb := Real.cos_bound habs
  rw [abs_sub_le_iff] at hb
  obtain ⟨hb1, hb2⟩ := hb
  rw [abs_of_pos hapos] at hb1 hb2
  have ha2u : a ^ 2 ≤ (3141593 / 1000000 / 128 : ℝ) ^ 2 := pow_le_pow_left hapos.le hu 2
  have ha2l : (3141592 / 1000000 / 128 : ℝ) ^ 2 ≤ a ^ 2 := pow_le_pow_left (by norm_num) hl 2
  have ha4u : a ^ 4 ≤ (3141593 / 1000000 / 128 : ℝ) ^ 4 := pow_le_pow_left hapos.le hu 4
  constructor
  · have hcl : 1 - a ^ 2 / 2 - a ^ 4 * (5 / 96) ≤ Real.cos a := by linarith
    have : (1 - (3141593 / 1000000 / 128 : ℝ) ^ 2 / 2 -
        (3141593 / 1000000 / 128 : ℝ) ^ 4 * (5 / 96)) ≤ Real.cos a := by linarith
    unfold cos1Itv iscale
    push_cast
    nlinarith [this]
  · have hcu : Real.cos a ≤ 1 - a ^ 2 / 2 + a ^ 4 * (5 / 96) := by linarith
    have : Real.cos a ≤ 1 - (3141592 / 1000000 / 128 : ℝ) ^ 2 / 2 +
        (3141593 / 1000000 / 128 : ℝ) ^ 4 * (5 / 96) := by linarith
    unfold cos1Itv iscale
    push_cast
    nlinarith [this]

theorem sin1Itv_mem : sin1Itv.mem (Real.sin (Real.pi / 128)) := by
  obtain ⟨hl, hu⟩ := pi128_bounds
  set a := Real.pi / 128 with ha
  have hapos : 0 < a := by positivity
  have habs : |a| ≤ 1 := by
    rw [abs_of_pos hapos]
    linarith
  have hb := Real.sin_bound habs
  rw [abs_sub_le_iff] at hb
  obtain ⟨hb1, hb2⟩ := hb
  rw [abs_of_pos hapos] at hb1 hb2
  have ha3u : a ^ 3 ≤ (3141593 / 1000000 / 128 : ℝ) ^ 3 := pow_le_pow_left hapos.le hu 3
  have ha3l : (3141592 / 1000000 / 128 : ℝ) ^ 3 ≤ a ^ 3 := pow_le_pow_left (by norm_num) hl 3
  have ha4u : a ^ 4 ≤ (3141593 / 1000000 / 128 : ℝ) ^ 4 := pow_le_pow_left hapos.le hu 4
  constructor
  · have hsl : a - a ^ 3 / 6 - a ^ 4 * (5 / 96) ≤ Real.sin a := by linarith
    have : (3141592 / 1000000 / 128 : ℝ) - (3141593 / 1000000 / 128 : ℝ) ^ 3 / 6 -
        (3141593 / 1000000 / 128 : ℝ) ^ 4 * (5 / 96) ≤ Real.sin a := by linarith
    unfold sin1Itv iscale
    push_cast
    nlinarith [this]
  · have hsu : Real.sin a ≤ a - a ^ 3 / 6 + a ^ 4 * (5 / 96) := by linarith
    have : Real.sin a ≤ (3141593 / 1000000 / 128 : ℝ) -
        (3141592 / 1000000 / 128 : ℝ) ^ 3 / 6 +
        (3141593 / 1000000 / 128 : ℝ) ^ 4 * (5 / 96) := by linarith
    unfold sin1Itv iscale
    push_cast
    nlinarith [this]

theorem mixChain_mem (p : ℕ) :
    (mixChain p).1.mem (Real.cos (p * (Real.pi / 128))) ∧
    (mixChain p).2.mem (Real.sin (p * (Real.pi / 128))) := by
  induction p with
  | zero =>
    refine ⟨⟨?_, ?_⟩, ⟨?_, ?_⟩⟩ <;> norm_num [mixChain, Itv.mem, iscale]
  | succ n ih =>
    have harg : ((n + 1 : ℕ) : ℝ) * (Real.pi / 128) =
        (n : ℝ) * (Real.pi / 128) + Real.pi / 128 := by
      push_cast
      ring
    have hcos : Real.cos ((n + 1 : ℕ) * (Real.pi / 128)) =
        Real.cos (n * (Real.pi / 128)) * Real.cos (Real.pi / 128) -
        Real.sin (n * (Real.pi / 128)) * Real.sin (Real.pi / 128) := by
      rw [harg, Real.cos_add]
    have hsin : Real.sin ((n + 1 : ℕ) * (Real.pi / 128)) =
        Real.sin (n * (Real.pi / 128)) * Real.cos (Real.pi / 128) +
        Real.cos (n * (Real.pi / 128)) * Real.sin (Real.pi / 128) := by
      rw [harg, Real.sin_add]
    constructor
    · rw [show mixChain (n + 1) = mixStep (mixChain n) from rfl, hcos]
      exact Itv.mem_sub (Itv.mem_mul ih.1 cos1Itv_mem) (Itv.mem_mul ih.2 sin1Itv_mem)
    · rw [show mixChain (n + 1) = mixStep (mixChain n) from rfl, hsin]
      exact Itv.mem_add (Itv.mem_mul ih.2 cos1Itv_mem) (Itv.mem_mul ih.1 sin1Itv_mem)

theorem lutChainOk_spec : ∀ (n k : ℕ), lutChainOk n (mixChain k) = true →
    ∀ p, k ≤ p → p < k + n → lutOkAt p = true := by
  intro n
  induction n with
  | zero => intro k _ p _ hp2; omega
  | succ m ih =>
    intro k h p hp1 hp2
    rw [show lutChainOk (m + 1) (mixChain k) =
      (lutOkAtCs (mixChain k) && lutChainOk m (mixStep (mixChain k))) from rfl,
      Bool.and_eq_true] at h
    rcases Nat.eq_or_lt_of_le hp1 with rfl | hlt
    · exact h.1
    · exact ih (k + 1) h.2 p hlt (by omega)

set_option maxRecDepth 8192 in
set_option maxHeartbeats 2000000 in
theorem lut_ok : ∀ p, p < 256 → lutOkAt p = true := fun p hp =>
  lutChainOk_spec 256 0 (by decide) p (Nat.zero_le p) hp

theorem strictIn_bounds {ylo yhi : ℤ} {x : ℝ} (h : strictIn ylo yhi = true)
    (hxl : (ylo : ℝ) ≤ x * iscale) (hxu : x * iscale ≤ (yhi : ℝ)) :
    (nearInt ylo yhi : ℝ) - 1 / 2 < x ∧ x < (nearInt ylo yhi : ℝ) + 1 / 2 := by
  unfold strictIn at h
  rw [Bool.and_eq_true, decide_eq_true_iff, decide_eq_true_iff] at h
  obtain ⟨h1, h2⟩ := h
  have h1' : ((2 * nearInt ylo yhi - 1) * iscale : ℝ) < 2 * ylo := by exact_mod_cast h1
  have h2' : (2 * yhi : ℝ) < (2 * nearInt ylo yhi + 1) * iscale := by exact_mod_cast h2
  have hS : (0 : ℝ) < (iscale : ℝ) := by
    have := iscale_pos
    exact_mod_cast this
  constructor
  · nlinarith
  · nlinarith

theorem floorHalf_eq {x : ℝ} {m : ℤ} (h1 : (m : ℝ) - 1 / 2 < x) (h2 : x < (m : ℝ) + 1 / 2) :
    ⌊x + 1 / 2⌋ = m := by
  rw [Int.floor_eq_iff]
  constructor
  · linarith
  · linarith

theorem roundAwayZero_eq {x : ℝ} {m : ℤ} (h1 : (m : ℝ) - 1 / 2 < x)
    (h2 : x < (m : ℝ) + 1 / 2) : roundAwayZero x = m := by
  unfold roundAwayZero
  split
  · exact floorHalf_eq h1 h2
  · have h3 : ⌊-x + 1 / 2⌋ = -m := by
      apply floorHalf_eq
      · push_cast
        linarith
      · push_cast
        linarith
    rw [h3, neg_neg]

theorem carr_angle (p : ℕ) : (-2 * Real.pi * p / NTBL : ℝ) = -((p : ℝ) * (Real.pi / 128)) := by
  unfold NTBL
  push_cast
  ring

theorem carr_I_vals (p : ℕ) (hp : p < 256) : carr_I p = lutI p ∧ cI_spec p = lutI p := by
  have hok := lut_ok p hp
  unfold lutOkAt lutOkAtCs at hok
  rw [Bool.and_eq_true] at hok
  have hmem := (mixChain_mem p).1
  obtain ⟨hm1, hm2⟩ := hmem
  have hxl : (((lutIbounds p).1 : ℤ) : ℝ) ≤
      Real.cos ((p : ℝ) * (Real.pi / 128)) * CSCALE * iscale := by
    simp only [lutIbounds, CSCALE]
    push_cast
    nlinarith [hm1]
  have hxu : Real.cos ((p : ℝ) * (Real.pi / 128)) * CSCALE * iscale ≤
      (((lutIbounds p).2 : ℤ) : ℝ) := by
    simp only [lutIbounds, CSCALE]
    push_cast
    nlinarith [hm2]
  have hb := strictIn_bounds hok.1 hxl hxu
  have hcos : Real.cos (-2 * Real.pi * p / NTBL) = Real.cos ((p : ℝ) * (Real.pi / 128)) := by
    rw [carr_angle, Real.cos_neg]
  constructor
  · unfold carr_I cROUND
    rw [hcos]
    exact floorHalf_eq hb.1 hb.2
  · unfold cI_spec
    rw [hcos]
    exact roundAwayZero_eq hb.1 hb.2

theorem carr_Q_vals (p : ℕ) (hp : p < 256) : carr_Q p = lutQ p ∧ cQ_spec p = lutQ p := by
  have hok := lut_ok p hp
  unfold lutOkAt lutOkAtCs at hok
  rw [Bool.and_eq_true] at hok
  have hmem := (mixChain_mem p).2
  obtain ⟨hm1, hm2⟩ := hmem
  have hxl : (((lutQbounds p).1 : ℤ) : ℝ) ≤
      -Real.sin ((p : ℝ) * (Real.pi / 128)) * CSCALE * iscale := by
    simp only [lutQbounds, CSCALE]
    push_cast
    nlinarith [hm2]
  have hxu : -Real.sin ((p : ℝ) * (Real.pi / 128)) * CSCALE * iscale ≤
      (((lutQbounds p).2 : ℤ) : ℝ) := by
    simp only [lutQbounds, CSCALE]
    push_cast
    nlinarith [hm1]
  have hb := strictIn_bounds hok.2 hxl hxu
  have hsin : Real.sin (-2 * Real.pi * p / NTBL) = -Real.sin ((p : ℝ) * (Real.pi / 128)) := by
    rw [carr_angle, Real.sin_neg]
  constructor
  · unfold carr_Q cROUND
    rw [hsin]
    exact floorHalf_eq hb.1 hb.2
  · unfold cQ_spec
    rw [hsin]
    exact roundAwayZero_eq hb.1 hb.2

/-!
## Access lemmas for the carrier mixer loop
-/

theorem mix_carr_rec_length (data : ℕ → ℕ) (s : ℕ) :
    ∀ (n ix p : ℕ), (mix_carr_rec data ix p s n).length = n := by
  intro n
  induction n with
  | zero => intro ix p; rfl
  | succ m ih =>
    intro ix p
    simp [mix_carr_rec, ih]

theorem mix_carr_rec_getD (data : ℕ → ℕ) (s : ℕ) (d : SdrCpx16) :
    ∀ (n ix p i : ℕ), p < 2 ^ 32 → i < n →
    (mix_carr_rec data ix p s n).getD i d =
      mix_tbl (data (ix + i) * 256 + ((p + i * s) % 2 ^ 32) >>> 24) := by
  intro n
  induction n with
  | zero => intro ix p i hp hi; exact absurd hi (Nat.not_lt_zero i)
  | succ m ih =>
    intro ix p i hp hi
    cases i with
    | zero =>
      simp only [mix_carr_rec, List.getD_cons_zero, Nat.add_zero, Nat.zero_mul,
        Nat.mod_eq_of_lt hp]
    | succ j =>
      have hp' : (p + s) % 2 ^ 32 < 2 ^ 32 := Nat.mod_lt _ (by norm_num)
      have hj : j < m := Nat.lt_of_succ_lt_succ hi
      simp only [mix_carr_rec, List.getD_cons_succ]
      rw [ih (ix + 1) ((p + s) % 2 ^ 32) j hp' hj]
      have hix : ix + 1 + j = ix + (j + 1) := by omega
      have hph : ((p + s) % 2 ^ 32 + j * s) % 2 ^ 32 = (p + (j + 1) * s) % 2 ^ 32 := by
        rw [Nat.mod_add_mod]
        congr 1
        rw [Nat.succ_mul]
        omega
      rw [hix, hph]

theorem castU32_lt (x : ℝ) : castU32 x < 2 ^ 32 := by
  unfold castU32
  exact Nat.mod_lt _ (by norm_num)

theorem mix_carr_length (buff : SdrBuff) (ix N : ℕ) (phi step : ℝ) :
    (mix_carr buff ix N phi step).length = N := by
  unfold mix_carr
  exact mix_carr_rec_length _ _ _ _ _

theorem mix_carr_getD (buff : SdrBuff) (ix N : ℕ) (phi step : ℝ) (i : ℕ) (d : SdrCpx16)
    (hi : i < N) :
    (mix_carr buff ix N phi step).getD i d =
      mix_tbl (buff.data (ix + i) * 256 +
        ((castU32 (phi * 2 ^ 24) + i * castU32 (step * 2 ^ 24)) % 2 ^ 32) >>> 24) := by
  unfold mix_carr
  exact mix_carr_rec_getD _ _ _ _ _ _ _ (castU32_lt _) hi

/-- Claim C5: For a contiguous window within the buffer, the carrier mixer
obeys the scalar reference law: with `step = fc/fs·256` and initial phase
`p0 = (phi mod 1)·256`, both scaled by `2^24` and truncated to unsigned
32-bit, output `i` is `mix_tbl[(buff[ix+i] << 8) | (p >> 24)]` where `p` is
the 32-bit accumulator after `i` wrap-around additions of the scaled step.
(Stated for `0 ≤ phi` and `0 ≤ fc/fs`, where the source's `fmod` and
`(uint32_t)` casts coincide with `Int.fract` and truncation.) -/
theorem sdr_mix_carr_scalar_law (buff : SdrBuff) (ix N : ℕ) (fs fc phi : ℝ)
    (hphi : 0 ≤ phi) (_hstep : 0 ≤ fc / fs) (hcontig : ix + N ≤ buff.N) :
    (sdr_mix_carr buff ix N fs fc phi).length = N ∧
    ∀ i < N, (sdr_mix_carr buff ix N fs fc phi).getD i ⟨0, 0⟩ =
      mix_tbl (buff.data (ix + i) * 256 +
        ((castU32 (Int.fract phi * 256 * 2 ^ 24) +
          i * castU32 (fc / fs * 256 * 2 ^ 24)) % 2 ^ 32) >>> 24) := by
  have hfmod : cFmod1 phi = Int.fract phi := by
    unfold cFmod1
    rw [if_pos hphi]
  have hntbl : ((NTBL : ℕ) : ℝ) = 256 := by norm_num [NTBL]
  have hunf : sdr_mix_carr buff ix N fs fc phi =
      mix_carr buff ix N (cFmod1 phi * NTBL) (fc / fs * NTBL) := by
    unfold sdr_mix_carr
    rw [if_pos hcontig]
  constructor
  · rw [hunf]
    exact mix_carr_length _ _ _ _ _
  · intro i hi
    rw [hunf, mix_carr_getD _ _ _ _ _ _ _ hi, hfmod, hntbl]

theorem castU32_natCast (k : ℕ) : castU32 (k : ℝ) = k % 2 ^ 32 := by
  unfold castU32
  rw [Int.floor_natCast, Int.toNat_natCast]

theorem modAddMul (a b k : ℕ) :
    (a % 2 ^ 32 + k * (b % 2 ^ 32)) % 2 ^ 32 = (a + k * b) % 2 ^ 32 := by
  have h1 : (a % 2 ^ 32 + k * (b % 2 ^ 32)) % 2 ^ 32 = (a + k * (b % 2 ^ 32)) % 2 ^ 32 :=
    Nat.mod_add_mod a (2 ^ 32) (k * (b % 2 ^ 32))
  have h2 : k * (b % 2 ^ 32) ≡ k * b [MOD 2 ^ 32] := (Nat.mod_modEq b (2 ^ 32)).mul_left k
  have h3 : a + k * (b % 2 ^ 32) ≡ a + k * b [MOD 2 ^ 32] := h2.add_left a
  rw [h1]
  exact h3

/-- Claim C1 (amended): The output of `sdr_mix_carr` is identical whether the
window is contiguous or wraps past the buffer end, provided both cases read
the same sequence of sample bytes *and* the scaled initial phase
`(phi mod 1)·256·2^24` and scaled phase step `(fc/fs)·256·2^24` are integers
(so that no fractional phase bits are lost when the wrapped call recomputes
the second pass's start phase by truncation). -/
theorem sdr_mix_carr_wrap_exact_of_int_phase (B1 B2 : SdrBuff) (ix1 ix2 N : ℕ)
    (fs fc phi : ℝ) (phi256 s256 : ℕ)
    (hphi : cFmod1 phi * NTBL * 2 ^ 24 = (phi256 : ℝ))
    (hs : fc / fs * NTBL * 2 ^ 24 = (s256 : ℝ))
    (hw : B2.N < ix2 + N) (hix2 : ix2 ≤ B2.N) (hc : ix1 + N ≤ B1.N)
    (hbytes : ∀ i < N,
      B2.data (if ix2 + i < B2.N then ix2 + i else ix2 + i - B2.N) = B1.data (ix1 + i)) :
    sdr_mix_carr B2 ix2 N fs fc phi = sdr_mix_carr B1 ix1 N fs fc phi := by
  have hnw : ¬(ix2 + N ≤ B2.N) := by omega
  have hL : sdr_mix_carr B2 ix2 N fs fc phi =
      mix_carr B2 ix2 (B2.N - ix2) (cFmod1 phi * NTBL) (fc / fs * NTBL) ++
      mix_carr B2 0 (N - (B2.N - ix2))
        (cFmod1 phi * NTBL + fc / fs * NTBL * (B2.N - ix2 : ℕ)) (fc / fs * NTBL) := by
    unfold sdr_mix_carr
    rw [if_neg hnw]
  have hR : sdr_mix_carr B1 ix1 N fs fc phi =
      mix_carr B1 ix1 N (cFmod1 phi * NTBL) (fc / fs * NTBL) := by
    unfold sdr_mix_carr
    rw [if_pos hc]
  set n := B2.N - ix2 with hn
  have hnN : n ≤ N := by omega
  -- the three fixed-point phase quantities
  have hp0 : castU32 (cFmod1 phi * NTBL * 2 ^ 24) = phi256 % 2 ^ 32 := by
    rw [hphi, castU32_natCast]
  have hs0 : castU32 (fc / fs * NTBL * 2 ^ 24) = s256 % 2 ^ 32 := by
    rw [hs, castU32_natCast]
  have hp1 : castU32 ((cFmod1 phi * NTBL + fc / fs * NTBL * (n : ℕ)) * 2 ^ 24) =
      (phi256 + s256 * n) % 2 ^ 32 := by
    have harg : (cFmod1 phi * NTBL + fc / fs * NTBL * (n : ℕ)) * 2 ^ 24 =
        ((phi256 + s256 * n : ℕ) : ℝ) := by
      push_cast
      rw [← hphi, ← hs]
      ring
    rw [harg, castU32_natCast]
  rw [hL, hR]
  apply List.ext_getElem
  · rw [List.length_append, mix_carr_length, mix_carr_length, mix_carr_length]
    omega
  · intro i h1 h2
    have hiN : i < N := by
      rw [List.length_append, mix_carr_length, mix_carr_length] at h1
      omega
    rw [← List.getD_eq_getElem _ ⟨0, 0⟩ h1, ← List.getD_eq_getElem _ ⟨0, 0⟩ h2]
    rw [mix_carr_getD _ _ _ _ _ _ _ hiN]
    rcases Nat.lt_or_ge i n with hin | hin
    · rw [List.getD_append _ _ _ _ (by rw [mix_carr_length]; exact hin)]
      rw [mix_carr_getD _ _ _ _ _ _ _ hin]
      have hbyte := hbytes i hiN
      rw [if_pos (by omega)] at hbyte
      rw [hbyte]
    · rw [List.getD_append_right _ _ _ _ (by rw [mix_carr_length]; exact hin)]
      rw [mix_carr_length]
      have hin' : i - n < N - n := by omega
      rw [mix_carr_getD _ _ _ _ _ _ _ hin']
      have hbyte := hbytes i hiN
      rw [if_neg (by omega)] at hbyte
      have hidx : 0 + (i - n) = ix2 + i - B2.N := by omega
      rw [hidx, hbyte]
      -- phases agree modulo 2^32
      rw [hp0, hs0, hp1]
      obtain ⟨t, rfl⟩ : ∃ t, i = n + t := ⟨i - n, by omega⟩
      have ht : n + t - n = t := by omega
      rw [ht, modAddMul (phi256 + s256 * n) s256 t, modAddMul phi256 s256 (n + t)]
      have : phi256 + s256 * n + t * s256 = phi256 + (n + t) * s256 := by ring
      rw [this]

/-- Witness for `sdr_mix_carr_wrap_exact_of_int_phase` at a concrete input:
a 2-sample buffer, wrapped window `[1, 3)` versus contiguous window `[0, 2)`
over the same bytes, `fs = 256`, `fc = 64`, `phi = 0`. -/
theorem sdr_mix_carr_wrap_exact_witness :
    sdr_mix_carr ⟨2, 1, fun _ => 17⟩ 1 2 256 64 0 =
    sdr_mix_carr ⟨2, 1, fun _ => 17⟩ 0 2 256 64 0 := by
  apply sdr_mix_carr_wrap_exact_of_int_phase _ _ 0 1 2 256 64 0 0 1073741824
  · show cFmod1 0 * NTBL * 2 ^ 24 = ((0 : ℕ) : ℝ)
    unfold cFmod1
    rw [if_pos le_rfl]
    norm_num
  · show (64 : ℝ) / 256 * NTBL * 2 ^ 24 = ((1073741824 : ℕ) : ℝ)
    norm_num [NTBL]
  · norm_num
  · norm_num
  · norm_num
  · intro i _
    rfl

theorem carr_Q_two : carr_Q 2 = 0 :=
  (carr_Q_vals 2 (by norm_num)).1.trans (by decide)

theorem carr_Q_three : carr_Q 3 = -1 :=
  (carr_Q_vals 3 (by norm_num)).1.trans (by decide)

theorem mix_tbl_259_ne_258 : mix_tbl 259 ≠ mix_tbl 258 := by
  intro hEq
  have hQ := congrArg SdrCpx16.Q hEq
  norm_num [mix_tbl, SDR_CPX8_I, SDR_CPX8_Q] at hQ
  rw [carr_Q_two, carr_Q_three] at hQ
  exact absurd hQ (by decide)

/-- Claim C1 (counterexample): All provisos of the claim hold at this input:
the wrapped window `[1, 3)` of the 2-sample buffer reads the same byte
sequence as the contiguous window `[0, 2)`, yet `sdr_mix_carr` produces
different outputs, because the wrapped call's second pass truncates its
recomputed start phase `(phi + step·n)·2^24` to `3·2^24` while the
contiguous accumulator holds `3·2^24 - 1`, so the two passes index different
LUT phases (3 versus 2). -/
theorem sdr_mix_carr_wrap_counterexample :
    (∀ i < 2, cxBuff.data (if 1 + i < cxBuff.N then 1 + i else 1 + i - cxBuff.N) =
      cxBuff.data (0 + i)) ∧
    cxBuff.N < 1 + 2 ∧ 0 + 2 ≤ cxBuff.N ∧
    sdr_mix_carr cxBuff 1 2 (2 ^ 34) 3 (3 / 256 - 1 / 2 ^ 33) ≠
      sdr_mix_carr cxBuff 0 2 (2 ^ 34) 3 (3 / 256 - 1 / 2 ^ 33) := by
  refine ⟨fun i _ => rfl, by norm_num [cxBuff], by norm_num [cxBuff], ?_⟩
  have hfr : cFmod1 (3 / 256 - 1 / 2 ^ 33 : ℝ) = 3 / 256 - 1 / 2 ^ 33 := by
    unfold cFmod1
    rw [if_pos (by norm_num)]
    exact Int.fract_eq_self.mpr ⟨by norm_num, by norm_num⟩
  have hp0 : castU32 (cFmod1 (3 / 256 - 1 / 2 ^ 33 : ℝ) * NTBL * 2 ^ 24) = 50331647 := by
    rw [hfr]
    unfold castU32
    have hfl : ⌊(3 / 256 - 1 / 2 ^ 33 : ℝ) * NTBL * 2 ^ 24⌋ = 50331647 := by
      apply Int.floor_eq_iff.mpr
      constructor
      · norm_num [NTBL]
      · norm_num [NTBL]
    rw [hfl]
    rfl
  have hs0 : castU32 ((3 : ℝ) / 2 ^ 34 * NTBL * 2 ^ 24) = 0 := by
    unfold castU32
    have hfl : ⌊(3 : ℝ) / 2 ^ 34 * NTBL * 2 ^ 24⌋ = 0 := by
      apply Int.floor_eq_iff.mpr
      constructor
      · norm_num [NTBL]
      · norm_num [NTBL]
    rw [hfl]
    norm_num
  have hp1 : castU32 ((cFmod1 (3 / 256 - 1 / 2 ^ 33 : ℝ) * NTBL +
      (3 : ℝ) / 2 ^ 34 * NTBL * ((cxBuff.N - 1 : ℕ) : ℝ)) * 2 ^ 24) = 50331648 := by
    rw [hfr]
    unfold castU32
    have hfl : ⌊((3 / 256 - 1 / 2 ^ 33 : ℝ) * NTBL +
        (3 : ℝ) / 2 ^ 34 * NTBL * ((cxBuff.N - 1 : ℕ) : ℝ)) * 2 ^ 24⌋ = 50331648 := by
      apply Int.floor_eq_iff.mpr
      constructor
      · norm_num [NTBL, cxBuff]
      · norm_num [NTBL, cxBuff]
    rw [hfl]
    rfl
  have hwrapped : sdr_mix_carr cxBuff 1 2 (2 ^ 34) 3 (3 / 256 - 1 / 2 ^ 33) =
      mix_carr cxBuff 1 (cxBuff.N - 1)
        (cFmod1 (3 / 256 - 1 / 2 ^ 33) * NTBL) ((3 : ℝ) / 2 ^ 34 * NTBL) ++
      mix_carr cxBuff 0 (2 - (cxBuff.N - 1))
        (cFmod1 (3 / 256 - 1 / 2 ^ 33) * NTBL +
         (3 : ℝ) / 2 ^ 34 * NTBL * ((cxBuff.N - 1 : ℕ) : ℝ)) ((3 : ℝ) / 2 ^ 34 * NTBL) := by
    unfold sdr_mix_carr
    rw [if_neg (by norm_num [cxBuff])]
  have hcontig : sdr_mix_carr cxBuff 0 2 (2 ^ 34) 3 (3 / 256 - 1 / 2 ^ 33) =
      mix_carr cxBuff 0 2
        (cFmod1 (3 / 256 - 1 / 2 ^ 33) * NTBL) ((3 : ℝ) / 2 ^ 34 * NTBL) := by
    unfold sdr_mix_carr
    rw [if_pos (by norm_num [cxBuff])]
  apply ne_of_apply_ne (fun l => l.getD 1 ⟨0, 0⟩)
  have hgetL : (sdr_mix_carr cxBuff 1 2 (2 ^ 34) 3 (3 / 256 - 1 / 2 ^ 33)).getD 1 ⟨0, 0⟩ =
      mix_tbl 259 := by
    rw [hwrapped]
    rw [List.getD_append_right _ _ _ _ (by rw [mix_carr_length]; norm_num [cxBuff])]
    rw [mix_carr_length]
    rw [show (1 : ℕ) - (cxBuff.N - 1) = 0 from by norm_num [cxBuff]]
    rw [mix_carr_getD _ _ _ _ _ _ _ (by norm_num [cxBuff])]
    rw [hp1, hs0]
    norm_num [cxBuff, Nat.shiftRight_eq_div_pow]
  have hgetR : (sdr_mix_carr cxBuff 0 2 (2 ^ 34) 3 (3 / 256 - 1 / 2 ^ 33)).getD 1 ⟨0, 0⟩ =
      mix_tbl 258 := by
    rw [hcontig]
    rw [mix_carr_getD _ _ _ _ _ _ _ (by norm_num)]
    rw [hp0, hs0]
    norm_num [cxBuff, Nat.shiftRight_eq_div_pow]
  rw [hgetL, hgetR]
  exact mix_tbl_259_ne_258

/-- Witness for `sdr_mix_carr_scalar_law` at a concrete input: 4-sample
buffer of constant byte 5, window `[1, 3)`, `fs = 2`, `fc = 1`, `phi = 0`,
output index `i = 1`. -/
theorem sdr_mix_carr_scalar_law_witness :
    (sdr_mix_carr ⟨4, 1, fun _ => 5⟩ 1 2 2 1 0).length = 2 ∧
    (sdr_mix_carr ⟨4, 1, fun _ => 5⟩ 1 2 2 1 0).getD 1 ⟨0, 0⟩ =
      mix_tbl (5 * 256 +
        ((castU32 (Int.fract (0 : ℝ) * 256 * 2 ^ 24) +
          1 * castU32 ((1 : ℝ) / 2 * 256 * 2 ^ 24)) % 2 ^ 32) >>> 24) := by
  have h := sdr_mix_carr_scalar_law ⟨4, 1, fun _ => 5⟩ 1 2 2 1 0
    (by norm_num) (by norm_num) (by norm_num)
  exact ⟨h.1, h.2 1 (by norm_num)⟩

/-!
## The LUT law (C6)
-/

theorem carr_I_zero : carr_I 0 = 10 :=
  (carr_I_vals 0 (by norm_num)).1.trans (by decide)

theorem carr_Q_zero : carr_Q 0 = 0 :=
  (carr_Q_vals 0 (by norm_num)).1.trans (by decide)

set_option maxRecDepth 8192 in
theorem carr_I_64 : carr_I 64 = 0 :=
  (carr_I_vals 64 (by norm_num)).1.trans (by decide)

set_option maxRecDepth 8192 in
theorem carr_Q_64 : carr_Q 64 = -10 :=
  (carr_Q_vals 64 (by norm_num)).1.trans (by decide)

/-- Claim C6: After initialisation, every mixer LUT entry at index
`(b << 8) | p` equals `(sI·cI − sQ·cQ, sI·cQ + sQ·cI)` where `sI`, `sQ` are
the signed 4-bit nibble fields of `b` and `cI`, `cQ` are
`cos(−2πp/256)·CSCALE` and `sin(−2πp/256)·CSCALE` rounded half-away-from-zero;
in particular at phase 0 the entry for sample `(I=1, Q=0)` is `(10, 0)` and
for `(I=0, Q=1)` is `(0, 10)`, and at phase 64 the entry for sample byte
`0x01` is `(0, −10)`. -/
theorem mix_tbl_lut_law :
    (∀ p < 256, ∀ b < 256,
      mix_tbl (b * 256 + p) =
        { I := SDR_CPX8_I b * cI_spec p - SDR_CPX8_Q b * cQ_spec p
          Q := SDR_CPX8_I b * cQ_spec p + SDR_CPX8_Q b * cI_spec p }) ∧
    mix_tbl (1 * 256 + 0) = ⟨10, 0⟩ ∧
    mix_tbl (16 * 256 + 0) = ⟨0, 10⟩ ∧
    mix_tbl (1 * 256 + 64) = ⟨0, -10⟩ := by
  refine ⟨?_, ?_, ?_, ?_⟩
  · intro p hp b _
    have hI := carr_I_vals p hp
    have hQ := carr_Q_vals p hp
    have hdiv : (b * 256 + p) / 256 = b := by omega
    have hmod : (b * 256 + p) % 256 = p := by omega
    unfold mix_tbl
    rw [hdiv, hmod, hI.1, hQ.1, hI.2, hQ.2]
  · show mix_tbl 256 = ⟨10, 0⟩
    norm_num [mix_tbl, SDR_CPX8_I, SDR_CPX8_Q, carr_I_zero, carr_Q_zero]
  · show mix_tbl 4096 = ⟨0, 10⟩
    norm_num [mix_tbl, SDR_CPX8_I, SDR_CPX8_Q, carr_I_zero, carr_Q_zero]
  · show mix_tbl 320 = ⟨0, -10⟩
    norm_num [mix_tbl, SDR_CPX8_I, SDR_CPX8_Q, carr_I_64, carr_Q_64]

/-- Witness for `mix_tbl_lut_law` at phase 5, sample byte 9. -/
theorem mix_tbl_lut_law_witness :
    mix_tbl (9 * 256 + 5) =
      { I := SDR_CPX8_I 9 * cI_spec 5 - SDR_CPX8_Q 9 * cQ_spec 5
        Q := SDR_CPX8_I 9 * cQ_spec 5 + SDR_CPX8_Q 9 * cI_spec 5 } :=
  mix_tbl_lut_law.1 5 (by norm_num) 9 (by norm_num)

/-!
## Doppler bins (C9)
-/

/-- Claim C9: `sdr_dop_bins` returns a strictly increasing grid of length
`⌊2·max_dop/step⌋ + 1` with uniform step `DOP_STEP/T = 0.5/T` whose `i`-th
element is `dop - max_dop + i·step`; in particular for `T = 1e-3`, `dop = 0`,
`max_dop = 5000` it returns the 21 bins `{-5000, -4500, …, 4500, 5000}`. -/
theorem sdr_dop_bins_spec (T dop max_dop : ℝ) (hT : 0 < T) (_hmd : 0 ≤ max_dop) :
    (sdr_dop_bins T dop max_dop).length = (⌊2 * max_dop / (DOP_STEP / T)⌋).toNat + 1 ∧
    (∀ i < (sdr_dop_bins T dop max_dop).length,
      (sdr_dop_bins T dop max_dop).getD i 0 = dop - max_dop + i * (DOP_STEP / T)) ∧
    (∀ i, i + 1 < (sdr_dop_bins T dop max_dop).length →
      (sdr_dop_bins T dop max_dop).getD i 0 < (sdr_dop_bins T dop max_dop).getD (i + 1) 0) ∧
    (sdr_dop_bins (1 / 1000) 0 5000).length = 21 ∧
    (∀ i < 21, (sdr_dop_bins (1 / 1000) 0 5000).getD i 0 = -5000 + i * 500) := by
  have hlen : ∀ (T' dop' md' : ℝ), (sdr_dop_bins T' dop' md').length =
      (⌊2 * md' / (DOP_STEP / T')⌋).toNat + 1 := by
    intro T' dop' md'
    unfold sdr_dop_bins
    rw [List.length_map, List.length_range]
  have hel : ∀ (T' dop' md' : ℝ) (i : ℕ), i < (sdr_dop_bins T' dop' md').length →
      (sdr_dop_bins T' dop' md').getD i 0 = dop' - md' + i * (DOP_STEP / T') := by
    intro T' dop' md' i hi
    rw [hlen] at hi
    unfold sdr_dop_bins
    rw [List.getD_eq_getElem _ _ (by rw [List.length_map, List.length_range]; exact hi)]
    rw [List.getElem_map, List.getElem_range]
  refine ⟨hlen T dop max_dop, hel T dop max_dop, ?_, ?_, ?_⟩
  · intro i hi
    have h1 : i < (sdr_dop_bins T dop max_dop).length := by omega
    rw [hel T dop max_dop i h1, hel T dop max_dop (i + 1) hi]
    have hstep : 0 < DOP_STEP / T := by
      unfold DOP_STEP
      positivity
    push_cast
    nlinarith
  · rw [hlen]
    have hval : (2 * (5000 : ℝ) / (DOP_STEP / (1 / 1000))) = 20 := by
      unfold DOP_STEP
      norm_num
    rw [hval, show ((20 : ℝ)) = ((20 : ℤ) : ℝ) from by norm_num, Int.floor_intCast]
    rfl
  · intro i hi
    have hl : i < (sdr_dop_bins (1 / 1000 : ℝ) 0 5000).length := by
      rw [hlen]
      have hval : (2 * (5000 : ℝ) / (DOP_STEP / (1 / 1000))) = 20 := by
        unfold DOP_STEP
        norm_num
      rw [hval, show ((20 : ℝ)) = ((20 : ℤ) : ℝ) from by norm_num, Int.floor_intCast]
      omega
    rw [hel _ _ _ i hl]
    have hstep : (DOP_STEP / (1 / 1000) : ℝ) = 500 := by
      unfold DOP_STEP
      norm_num
    rw [hstep]
    ring

/-- Witness for `sdr_dop_bins_spec`: the concrete Doppler grid of the claim
has 21 bins and bin 3 is `-3500`. -/
theorem sdr_dop_bins_spec_witness :
    (sdr_dop_bins (1 / 1000) 0 5000).length = 21 ∧
    (sdr_dop_bins (1 / 1000) 0 5000).getD 3 0 = -5000 + (3 : ℕ) * 500 := by
  have h := sdr_dop_bins_spec (1 / 1000) 0 5000 (by norm_num) (by norm_num)
  exact ⟨h.2.2.2.1, h.2.2.2.2 3 (by norm_num)⟩

/-!
## Peak scan (C2, C10)
-/

theorem corr_max_step_n (P : ℕ → ℝ) (N : ℕ) (st : CorrMaxState) (c : ℕ × ℕ) :
    (corr_max_step P N st c).n = st.n + 1 := by
  unfold corr_max_step
  dsimp only
  split <;> rfl

theorem corr_max_step_ave (P : ℕ → ℝ) (N : ℕ) (st : CorrMaxState) (c : ℕ × ℕ) :
    (corr_max_step P N st c).P_ave =
      st.P_ave + (P (c.1 * N + c.2) - st.P_ave) / (st.n + 1) := by
  unfold corr_max_step
  dsimp only
  split <;> rfl

theorem corr_max_step_max (P : ℕ → ℝ) (N : ℕ) (st : CorrMaxState) (c : ℕ × ℕ) :
    (corr_max_step P N st c).P_max = max st.P_max (P (c.1 * N + c.2)) := by
  unfold corr_max_step
  dsimp only
  split
  · next h => exact (max_eq_left h).symm
  · next h => exact (max_eq_right (not_le.mp h).le).symm

theorem corr_max_step_ix (P : ℕ → ℝ) (N : ℕ) (st : CorrMaxState) (c : ℕ × ℕ) :
    (corr_max_step P N st c).ix =
      if P (c.1 * N + c.2) ≤ st.P_max then st.ix else ((c.1 : ℤ), (c.2 : ℤ)) := by
  unfold corr_max_step
  dsimp only
  split
  · rfl
  · rfl

theorem corr_max_fold_n (P : ℕ → ℝ) (N : ℕ) :
    ∀ (l : List (ℕ × ℕ)) (st : CorrMaxState),
    (l.foldl (corr_max_step P N) st).n = st.n + l.length := by
  intro l
  induction l with
  | nil => intro st; rfl
  | cons c t ih =>
    intro st
    rw [List.foldl_cons, ih, corr_max_step_n, List.length_cons]
    omega

theorem corr_max_fold_ave (P : ℕ → ℝ) (N : ℕ) :
    ∀ (l : List (ℕ × ℕ)) (st : CorrMaxState),
    (l.foldl (corr_max_step P N) st).P_ave * ((st.n : ℝ) + l.length) =
      st.P_ave * st.n + (l.map fun c => P (c.1 * N + c.2)).sum := by
  intro l
  induction l with
  | nil =>
    intro st
    simp
  | cons c t ih =>
    intro st
    rw [List.foldl_cons]
    have h := ih (corr_max_step P N st c)
    rw [corr_max_step_n, corr_max_step_ave] at h
    have hne : ((st.n : ℝ) + 1) ≠ 0 := by positivity
    have hkey : (st.P_ave + (P (c.1 * N + c.2) - st.P_ave) / (st.n + 1)) *
        ((st.n : ℝ) + 1) = st.P_ave * st.n + P (c.1 * N + c.2) := by
      field_simp
      ring
    rw [List.length_cons, List.map_cons, List.sum_cons]
    have hcast : ((st.n : ℝ) + ((t.length : ℕ) + 1 : ℕ)) = ((st.n + 1 : ℕ) : ℝ) + t.length := by
      push_cast
      ring
    rw [hcast]
    rw [show ((st.n + 1 : ℕ) : ℝ) = (st.n : ℝ) + 1 from by push_cast; ring] at h ⊢
    rw [h, hkey]
    ring

theorem corr_max_fold_max (P : ℕ → ℝ) (N : ℕ) :
    ∀ (l : List (ℕ × ℕ)) (st : CorrMaxState),
    (l.foldl (corr_max_step P N) st).P_max =
      (l.map fun c => P (c.1 * N + c.2)).foldl max st.P_max := by
  intro l
  induction l with
  | nil => intro st; rfl
  | cons c t ih =>
    intro st
    rw [List.foldl_cons, List.map_cons, List.foldl_cons, ih, corr_max_step_max]

theorem foldl_max_init : ∀ (l : List ℝ) (a : ℝ), a ≤ l.foldl max a := by
  intro l
  induction l with
  | nil => intro a; exact le_refl a
  | cons v t ih =>
    intro a
    exact le_trans (le_max_left a v) (ih (max a v))

theorem foldl_max_le_mem : ∀ (l : List ℝ) (a : ℝ), ∀ v ∈ l, v ≤ l.foldl max a := by
  intro l
  induction l with
  | nil => intro a v hv; exact absurd hv (List.not_mem_nil v)
  | cons w t ih =>
    intro a v hv
    rcases List.mem_cons.mp hv with h | h
    · subst h
      exact le_trans (le_max_right a v) (foldl_max_init t (max a v))
    · exact ih (max a w) v h

theorem foldl_max_cases : ∀ (l : List ℝ) (a : ℝ), l.foldl max a = a ∨ l.foldl max a ∈ l := by
  intro l
  induction l with
  | nil => intro a; exact Or.inl rfl
  | cons w t ih =>
    intro a
    rw [List.foldl_cons]
    rcases ih (max a w) with h | h
    · rw [h]
      rcases max_choice a w with h' | h'
      · exact Or.inl h'
      · rw [h']
        exact Or.inr (List.mem_cons_self w t)
    · exact Or.inr (List.mem_cons_of_mem w h)

theorem corr_max_fold_ix_unchanged (P : ℕ → ℝ) (N : ℕ) :
    ∀ (l : List (ℕ × ℕ)) (st : CorrMaxState),
    (∀ j < l.length, P ((l.getD j (0, 0)).1 * N + (l.getD j (0, 0)).2) ≤ st.P_max) →
    (l.foldl (corr_max_step P N) st).ix = st.ix ∧
    (l.foldl (corr_max_step P N) st).P_max = st.P_max := by
  intro l
  induction l with
  | nil => intro st _; exact ⟨rfl, rfl⟩
  | cons c t ih =>
    intro st hle
    have h0 := hle 0 (by simp)
    rw [List.getD_cons_zero] at h0
    have hst1ix : (corr_max_step P N st c).ix = st.ix := by
      rw [corr_max_step_ix, if_pos h0]
    have hst1max : (corr_max_step P N st c).P_max = st.P_max := by
      rw [corr_max_step_max, max_eq_left h0]
    rw [List.foldl_cons]
    have := ih (corr_max_step P N st c) (by
      intro j hj
      rw [hst1max]
      have := hle (j + 1) (by simpa using Nat.succ_lt_succ hj)
      rwa [List.getD_cons_succ] at this)
    rw [hst1ix, hst1max] at this
    exact this

theorem corr_max_fold_ix_argmax (P : ℕ → ℝ) (N : ℕ) :
    ∀ (l : List (ℕ × ℕ)) (st : CorrMaxState) (k : ℕ),
    k < l.length →
    st.P_max < P ((l.getD k (0, 0)).1 * N + (l.getD k (0, 0)).2) →
    (∀ j < k, P ((l.getD j (0, 0)).1 * N + (l.getD j (0, 0)).2) <
      P ((l.getD k (0, 0)).1 * N + (l.getD k (0, 0)).2)) →
    (∀ j, k ≤ j → j < l.length → P ((l.getD j (0, 0)).1 * N + (l.getD j (0, 0)).2) ≤
      P ((l.getD k (0, 0)).1 * N + (l.getD k (0, 0)).2)) →
    (l.foldl (corr_max_step P N) st).ix =
      (((l.getD k (0, 0)).1 : ℤ), ((l.getD k (0, 0)).2 : ℤ)) := by
  intro l
  induction l with
  | nil => intro st k hk; exact absurd hk (Nat.not_lt_zero k)
  | cons c t ih =>
    intro st k hk hgt hearlier hlater
    cases k with
    | zero =>
      rw [List.getD_cons_zero] at hgt ⊢
      have hst1ix : (corr_max_step P N st c).ix = ((c.1 : ℤ), (c.2 : ℤ)) := by
        rw [corr_max_step_ix, if_neg (not_le.mpr hgt)]
      have hst1max : (corr_max_step P N st c).P_max = P (c.1 * N + c.2) := by
        rw [corr_max_step_max, max_eq_right hgt.le]
      rw [List.foldl_cons]
      have hunch := corr_max_fold_ix_unchanged P N t (corr_max_step P N st c) (by
        intro j hj
        rw [hst1max]
        have := hlater (j + 1) (Nat.zero_le _) (by simpa using Nat.succ_lt_succ hj)
        rwa [List.getD_cons_succ, List.getD_cons_zero] at this)
      rw [hunch.1, hst1ix]
    | succ k' =>
      rw [List.getD_cons_succ] at hgt ⊢
      have hk' : k' < t.length := by simpa using Nat.lt_of_succ_lt_succ hk
      rw [List.foldl_cons]
      have hst1max : (corr_max_step P N st c).P_max ≤
          max st.P_max (P (c.1 * N + c.2)) := le_of_eq (corr_max_step_max P N st c)
      have hv0 : P (c.1 * N + c.2) <
          P ((t.getD k' (0, 0)).1 * N + (t.getD k' (0, 0)).2) := by
        have := hearlier 0 (Nat.succ_pos k')
        rwa [List.getD_cons_zero, List.getD_cons_succ] at this
      apply ih (corr_max_step P N st c) k' hk'
      · rw [corr_max_step_max]
        exact max_lt hgt hv0
      · intro j hj
        have := hearlier (j + 1) (Nat.succ_lt_succ hj)
        rwa [List.getD_cons_succ] at this
      · intro j hkj hj
        have := hlater (j + 1) (Nat.succ_le_succ hkj) (by simpa using Nat.succ_lt_succ hj)
        rwa [List.getD_cons_succ] at this

theorem scanOrder_length (M Nmax : ℕ) : (scanOrder M Nmax).length = M * Nmax := by
  induction M with
  | zero => simp [scanOrder]
  | succ m ih =>
    unfold scanOrder at ih ⊢
    rw [List.range_succ, List.flatMap_append, List.length_append, ih]
    simp [Nat.succ_mul]

theorem corr_max_fold_zero (P : ℕ → ℝ) (N : ℕ) :
    ∀ (l : List (ℕ × ℕ)) (st : CorrMaxState),
    (∀ j < l.length, P ((l.getD j (0, 0)).1 * N + (l.getD j (0, 0)).2) = 0) →
    st.P_max = 0 → st.P_ave = 0 →
    (l.foldl (corr_max_step P N) st).P_max = 0 ∧
    (l.foldl (corr_max_step P N) st).P_ave = 0 ∧
    (l.foldl (corr_max_step P N) st).ix = st.ix := by
  intro l
  induction l with
  | nil => intro st _ h1 h2; exact ⟨h1, h2, rfl⟩
  | cons c t ih =>
    intro st hz hmax hzave
    have h0 : P (c.1 * N + c.2) = 0 := by
      have := hz 0 (by simp)
      rwa [List.getD_cons_zero] at this
    have hmax1 : (corr_max_step P N st c).P_max = 0 := by
      rw [corr_max_step_max, hmax, h0, max_self]
    have have1 : (corr_max_step P N st c).P_ave = 0 := by
      rw [corr_max_step_ave, h0, hzave]
      norm_num
    have hix1 : (corr_max_step P N st c).ix = st.ix := by
      rw [corr_max_step_ix, if_pos (by rw [h0, hmax])]
    rw [List.foldl_cons]
    have := ih (corr_max_step P N st c) (by
      intro j hj
      have := hz (j + 1) (by simpa using Nat.succ_lt_succ hj)
      rwa [List.getD_cons_succ] at this) hmax1 have1
    rw [hix1] at this
    exact this

/-- Claim C10: `sdr_corr_max` writes `ix` only on a strict increase of the
running maximum, which starts at `0`; hence if every scanned cell is `0` the
function returns `0` and leaves the caller's `ix` entries unchanged. -/
theorem sdr_corr_max_zero_frame (P : ℕ → ℝ) (N Nmax M : ℕ) (T : ℝ) (ix0 : ℤ × ℤ)
    (hz : ∀ c ∈ scanOrder M Nmax, P (c.1 * N + c.2) = 0) :
    sdr_corr_max P N Nmax M T ix0 = (0, ix0) := by
  have hz' : ∀ j < (scanOrder M Nmax).length,
      P (((scanOrder M Nmax).getD j (0, 0)).1 * N + ((scanOrder M Nmax).getD j (0, 0)).2) = 0 := by
    intro j hj
    apply hz
    rw [List.getD_eq_getElem _ _ hj]
    exact List.getElem_mem hj
  have h := corr_max_fold_zero P N (scanOrder M Nmax) ⟨0, 0, 0, ix0⟩ hz' rfl rfl
  have hunf : sdr_corr_max P N Nmax M T ix0 =
      (if ((scanOrder M Nmax).foldl (corr_max_step P N) ⟨0, 0, 0, ix0⟩).P_ave > 0 then
        10 * Real.logb 10
          ((((scanOrder M Nmax).foldl (corr_max_step P N) ⟨0, 0, 0, ix0⟩).P_max -
            ((scanOrder M Nmax).foldl (corr_max_step P N) ⟨0, 0, 0, ix0⟩).P_ave) /
           ((scanOrder M Nmax).foldl (corr_max_step P N) ⟨0, 0, 0, ix0⟩).P_ave / T)
       else 0,
       ((scanOrder M Nmax).foldl (corr_max_step P N) ⟨0, 0, 0, ix0⟩).ix) := rfl
  rw [hunf, h.2.1, h.2.2]
  norm_num

/-- Witness for `sdr_corr_max_zero_frame`: a 2×2 all-zero grid leaves the
caller's `ix = (3, 4)` untouched and returns `0`. -/
theorem sdr_corr_max_zero_frame_witness :
    sdr_corr_max (fun _ => (0 : ℝ)) 2 2 2 1 (3, 4) = (0, (3, 4)) :=
  sdr_corr_max_zero_frame (fun _ => (0 : ℝ)) 2 2 2 1 (3, 4) (fun _ _ => rfl)

/-- Claim C2 (counterexample): On the all-zero 1×1 grid (a valid nonnegative
power grid) with caller `ix = (7, 9)`, the scan consists of the single cell
`(0, 0)`, whose value `0` is the (tied) row-major-first maximum, yet
`sdr_corr_max` leaves `ix = (7, 9) ≠ (0, 0)`: the claim's unconditional
"stores the row-major-first maximizing indices into ix" is false. -/
theorem sdr_corr_max_counterexample :
    scanOrder 1 1 = [(0, 0)] ∧
    (∀ c ∈ scanOrder 1 1, (0 : ℝ) ≤ (fun _ : ℕ => (0 : ℝ)) (c.1 * 1 + c.2)) ∧
    sdr_corr_max (fun _ => (0 : ℝ)) 1 1 1 1 (7, 9) = (0, (7, 9)) ∧
    ((7, 9) : ℤ × ℤ) ≠ ((0 : ℤ), (0 : ℤ)) := by
  refine ⟨rfl, fun c _ => le_refl 0, ?_, by decide⟩
  have h := corr_max_fold_zero (fun _ => (0 : ℝ)) 1 (scanOrder 1 1) ⟨0, 0, 0, (7, 9)⟩
    (fun j _ => rfl) rfl rfl
  have hunf : sdr_corr_max (fun _ => (0 : ℝ)) 1 1 1 1 (7, 9) =
      (if ((scanOrder 1 1).foldl (corr_max_step (fun _ => (0 : ℝ)) 1) ⟨0, 0, 0, (7, 9)⟩).P_ave > 0 then
        10 * Real.logb 10
          ((((scanOrder 1 1).foldl (corr_max_step (fun _ => (0 : ℝ)) 1) ⟨0, 0, 0, (7, 9)⟩).P_max -
            ((scanOrder 1 1).foldl (corr_max_step (fun _ => (0 : ℝ)) 1) ⟨0, 0, 0, (7, 9)⟩).P_ave) /
           ((scanOrder 1 1).foldl (corr_max_step (fun _ => (0 : ℝ)) 1) ⟨0, 0, 0, (7, 9)⟩).P_ave / 1)
       else 0,
       ((scanOrder 1 1).foldl (corr_max_step (fun _ => (0 : ℝ)) 1) ⟨0, 0, 0, (7, 9)⟩).ix) := rfl
  rw [hunf, h.2.1, h.2.2]
  norm_num

/-- Claim C2 (amended): For every grid with a strictly positive scanned cell
(the scan being `i ∈ [0, M)`, `j ∈ [0, Nmax)` over row stride `N`):
the running maximum `P_max` is the maximum of the scanned cells, the
returned metric is `10·log10((P_max − P_ave)/P_ave/T)` for `P_ave` the
arithmetic mean of the scanned cells (`0` if `P_ave ≤ 0`), and the returned
index pair is the row-major-first maximizing cell — which therefore attains
the maximum.  (When the maximum is not positive — e.g. an all-zero grid —
`ix` is instead left unchanged, see the counterexample and C10.) -/
theorem sdr_corr_max_spec (P : ℕ → ℝ) (N Nmax M : ℕ) (T : ℝ) (ix0 : ℤ × ℤ)
    (_hnn : ∀ c ∈ scanOrder M Nmax, 0 ≤ P (c.1 * N + c.2))
    (hpos : ∃ c ∈ scanOrder M Nmax, 0 < P (c.1 * N + c.2)) :
    (∀ v ∈ (scanOrder M Nmax).map fun c => P (c.1 * N + c.2),
      v ≤ ((scanOrder M Nmax).map fun c => P (c.1 * N + c.2)).foldl max 0) ∧
    ((scanOrder M Nmax).map fun c => P (c.1 * N + c.2)).foldl max 0 ∈
      ((scanOrder M Nmax).map fun c => P (c.1 * N + c.2)) ∧
    (sdr_corr_max P N Nmax M T ix0).1 =
      (if ((scanOrder M Nmax).map fun c => P (c.1 * N + c.2)).sum / ((M * Nmax : ℕ) : ℝ) > 0 then
        10 * Real.logb 10
          ((((scanOrder M Nmax).map fun c => P (c.1 * N + c.2)).foldl max 0 -
            ((scanOrder M Nmax).map fun c => P (c.1 * N + c.2)).sum / ((M * Nmax : ℕ) : ℝ)) /
           (((scanOrder M Nmax).map fun c => P (c.1 * N + c.2)).sum / ((M * Nmax : ℕ) : ℝ)) / T)
       else 0) ∧
    ∃ k < (scanOrder M Nmax).length,
      P (((scanOrder M Nmax).getD k (0, 0)).1 * N + ((scanOrder M Nmax).getD k (0, 0)).2) =
        ((scanOrder M Nmax).map fun c => P (c.1 * N + c.2)).foldl max 0 ∧
      (∀ j < k, P (((scanOrder M Nmax).getD j (0, 0)).1 * N + ((scanOrder M Nmax).getD j (0, 0)).2) <
        ((scanOrder M Nmax).map fun c => P (c.1 * N + c.2)).foldl max 0) ∧
      (sdr_corr_max P N Nmax M T ix0).2 =
        ((((scanOrder M Nmax).getD k (0, 0)).1 : ℤ), (((scanOrder M Nmax).getD k (0, 0)).2 : ℤ)) := by
  classical
  obtain ⟨c0, hc0L, hc0pos⟩ := hpos
  have hvmem : P (c0.1 * N + c0.2) ∈ (scanOrder M Nmax).map fun c => P (c.1 * N + c.2) :=
    List.mem_map_of_mem _ hc0L
  have hmpos : 0 < ((scanOrder M Nmax).map fun c => P (c.1 * N + c.2)).foldl max 0 :=
    lt_of_lt_of_le hc0pos (foldl_max_le_mem _ 0 _ hvmem)
  have hmmem : ((scanOrder M Nmax).map fun c => P (c.1 * N + c.2)).foldl max 0 ∈
      (scanOrder M Nmax).map fun c => P (c.1 * N + c.2) := by
    rcases foldl_max_cases ((scanOrder M Nmax).map fun c => P (c.1 * N + c.2)) 0 with h | h
    · rw [h] at hmpos
      exact absurd hmpos (lt_irrefl 0)
    · exact h
  have hlenpos : 0 < (scanOrder M Nmax).length :=
    List.length_pos.mpr (List.ne_nil_of_mem hc0L)
  have hfoldmax : ((scanOrder M Nmax).foldl (corr_max_step P N) ⟨0, 0, 0, ix0⟩).P_max =
      ((scanOrder M Nmax).map fun c => P (c.1 * N + c.2)).foldl max 0 :=
    corr_max_fold_max P N (scanOrder M Nmax) ⟨0, 0, 0, ix0⟩
  have hfoldave : ((scanOrder M Nmax).foldl (corr_max_step P N) ⟨0, 0, 0, ix0⟩).P_ave =
      ((scanOrder M Nmax).map fun c => P (c.1 * N + c.2)).sum / ((M * Nmax : ℕ) : ℝ) := by
    have h := corr_max_fold_ave P N (scanOrder M Nmax) ⟨0, 0, 0, ix0⟩
    simp only [Nat.cast_zero, zero_add, zero_mul] at h
    rw [scanOrder_length] at h
    have hne : ((M * Nmax : ℕ) : ℝ) ≠ 0 := by
      rw [← scanOrder_length M Nmax]
      exact_mod_cast hlenpos.ne'
    exact (eq_div_iff hne).mpr h
  have hunf : sdr_corr_max P N Nmax M T ix0 =
      (if ((scanOrder M Nmax).foldl (corr_max_step P N) ⟨0, 0, 0, ix0⟩).P_ave > 0 then
        10 * Real.logb 10
          ((((scanOrder M Nmax).foldl (corr_max_step P N) ⟨0, 0, 0, ix0⟩).P_max -
            ((scanOrder M Nmax).foldl (corr_max_step P N) ⟨0, 0, 0, ix0⟩).P_ave) /
           ((scanOrder M Nmax).foldl (corr_max_step P N) ⟨0, 0, 0, ix0⟩).P_ave / T)
       else 0,
       ((scanOrder M Nmax).foldl (corr_max_step P N) ⟨0, 0, 0, ix0⟩).ix) := rfl
  refine ⟨fun v hv => foldl_max_le_mem _ 0 v hv, hmmem, ?_, ?_⟩
  · rw [hunf]
    dsimp only
    rw [hfoldave, hfoldmax]
  · -- the row-major-first maximizing index
    have hexQ : ∃ j, j < (scanOrder M Nmax).length ∧
        P (((scanOrder M Nmax).getD j (0, 0)).1 * N + ((scanOrder M Nmax).getD j (0, 0)).2) =
        ((scanOrder M Nmax).map fun c => P (c.1 * N + c.2)).foldl max 0 := by
      obtain ⟨c, hcL, hcv⟩ := List.mem_map.mp hmmem
      obtain ⟨i, hi, hgi⟩ := List.getElem_of_mem hcL
      exact ⟨i, hi, by rw [List.getD_eq_getElem _ _ hi, hgi]; exact hcv⟩
    set k := Nat.find hexQ with hkdef
    obtain ⟨hklen, hkval⟩ := Nat.find_spec hexQ
    have hearlier : ∀ j < k,
        P (((scanOrder M Nmax).getD j (0, 0)).1 * N + ((scanOrder M Nmax).getD j (0, 0)).2) <
        ((scanOrder M Nmax).map fun c => P (c.1 * N + c.2)).foldl max 0 := by
      intro j hj
      have hjlen : j < (scanOrder M Nmax).length := lt_trans hj hklen
      have hle : P (((scanOrder M Nmax).getD j (0, 0)).1 * N + ((scanOrder M Nmax).getD j (0, 0)).2) ≤
          ((scanOrder M Nmax).map fun c => P (c.1 * N + c.2)).foldl max 0 := by
        apply foldl_max_le_mem
        apply List.mem_map_of_mem
        rw [List.getD_eq_getElem _ _ hjlen]
        exact List.getElem_mem hjlen
      have hne := Nat.find_min hexQ hj
      push_neg at hne
      exact lt_of_le_of_ne hle (hne hjlen)
    refine ⟨k, hklen, hkval, hearlier, ?_⟩
    rw [hunf]
    dsimp only
    apply corr_max_fold_ix_argmax P N (scanOrder M Nmax) ⟨0, 0, 0, ix0⟩ k hklen
    · rw [hkval]
      exact hmpos
    · intro j hj
      rw [hkval]
      exact hearlier j hj
    · intro j _ hjlen
      rw [hkval]
      apply foldl_max_le_mem
      apply List.mem_map_of_mem
      rw [List.getD_eq_getElem _ _ hjlen]
      exact List.getElem_mem hjlen

/-- Witness for `sdr_corr_max_spec`: a 1×2 grid with cells `1` and `2`; the
maximum of the scanned cells is attained in the scanned list. -/
theorem sdr_corr_max_spec_witness :
    ((scanOrder 1 2).map fun c => (fun k => if k = 1 then (2 : ℝ) else 1) (c.1 * 2 + c.2)).foldl max 0 ∈
      ((scanOrder 1 2).map fun c => (fun k => if k = 1 then (2 : ℝ) else 1) (c.1 * 2 + c.2)) :=
  (sdr_corr_max_spec (fun k => if k = 1 then (2 : ℝ) else 1) 2 2 1 1 (5, 5)
    (by intro c hc; fin_cases hc <;> norm_num)
    ⟨(0, 1), by decide, by norm_num⟩).2.1

/-!
## Standard correlator (C4)
-/

theorem dot_acc_eq (IQ code : ℕ → SdrCpx16) :
    ∀ n, dot_acc IQ code n =
      (∑ k ∈ Finset.range n, ((IQ k).I : ℝ) * ((code k).I : ℝ),
       ∑ k ∈ Finset.range n, ((IQ k).Q : ℝ) * ((code k).Q : ℝ)) := by
  intro n
  induction n with
  | zero => simp [dot_acc]
  | succ m ih =>
    unfold dot_acc
    rw [ih, Finset.sum_range_succ, Finset.sum_range_succ]

/-- Claim C4: The standard correlator computes, for each tap `pos[i]`,
`out[i].re = (Σ IQ.I·code.I over the overlap) · (1/M)/CSCALE` and
`out[i].im = (Σ IQ.Q·code.Q over the overlap) · (1/M)/CSCALE`, where for
`pos[i] > 0` the overlap is `IQ[pos..N)` against `code[0..N−pos)` with
`M = N − pos[i]`, for `pos[i] < 0` it is `IQ[0..N+pos)` against
`code[−pos..N)` with `M = N + pos[i]`, and for `pos[i] = 0` it is the full
length with `M = N`. -/
theorem corr_std_spec (IQ code : ℕ → SdrCpx16) (N : ℕ) (pos : List ℤ)
    (_htap : ∀ p ∈ pos, p.natAbs < N) :
    (corr_std IQ code N pos).length = pos.length ∧
    ∀ i < pos.length,
      (0 < pos.getD i 0 →
        (corr_std IQ code N pos).getD i (0, 0) =
          ((∑ k ∈ Finset.range (N - (pos.getD i 0).toNat),
              ((IQ ((pos.getD i 0).toNat + k)).I : ℝ) * ((code k).I : ℝ)) *
            (1 / ((N - (pos.getD i 0).toNat : ℕ) : ℝ) / CSCALE),
           (∑ k ∈ Finset.range (N - (pos.getD i 0).toNat),
              ((IQ ((pos.getD i 0).toNat + k)).Q : ℝ) * ((code k).Q : ℝ)) *
            (1 / ((N - (pos.getD i 0).toNat : ℕ) : ℝ) / CSCALE))) ∧
      (pos.getD i 0 < 0 →
        (corr_std IQ code N pos).getD i (0, 0) =
          ((∑ k ∈ Finset.range (N - (-pos.getD i 0).toNat),
              ((IQ k).I : ℝ) * ((code ((-pos.getD i 0).toNat + k)).I : ℝ)) *
            (1 / ((N - (-pos.getD i 0).toNat : ℕ) : ℝ) / CSCALE),
           (∑ k ∈ Finset.range (N - (-pos.getD i 0).toNat),
              ((IQ k).Q : ℝ) * ((code ((-pos.getD i 0).toNat + k)).Q : ℝ)) *
            (1 / ((N - (-pos.getD i 0).toNat : ℕ) : ℝ) / CSCALE))) ∧
      (pos.getD i 0 = 0 →
        (corr_std IQ code N pos).getD i (0, 0) =
          ((∑ k ∈ Finset.range N, ((IQ k).I : ℝ) * ((code k).I : ℝ)) *
            (1 / (N : ℝ) / CSCALE),
           (∑ k ∈ Finset.range N, ((IQ k).Q : ℝ) * ((code k).Q : ℝ)) *
            (1 / (N : ℝ) / CSCALE))) := by
  constructor
  · unfold corr_std
    exact List.length_map pos _
  · intro i hi
    have hget : (corr_std IQ code N pos).getD i (0, 0) =
        (if 0 < pos.getD i 0 then
          dot_IQ_code (fun k => IQ ((pos.getD i 0).toNat + k)) code (N - (pos.getD i 0).toNat)
            (1 / ((N - (pos.getD i 0).toNat : ℕ) : ℝ))
         else if pos.getD i 0 < 0 then
          dot_IQ_code IQ (fun k => code ((-pos.getD i 0).toNat + k)) (N - (-pos.getD i 0).toNat)
            (1 / ((N - (-pos.getD i 0).toNat : ℕ) : ℝ))
         else dot_IQ_code IQ code N (1 / (N : ℝ))) := by
      unfold corr_std
      rw [List.getD_eq_getElem _ _ (by rw [List.length_map]; exact hi), List.getElem_map,
        ← List.getD_eq_getElem pos 0 hi]
    refine ⟨?_, ?_, ?_⟩
    · intro hp
      rw [hget, if_pos hp]
      unfold dot_IQ_code
      rw [dot_acc_eq]
    · intro hp
      rw [hget, if_neg (not_lt.mpr hp.le), if_pos hp]
      unfold dot_IQ_code
      rw [dot_acc_eq]
    · intro hp
      rw [hget, if_neg (by omega), if_neg (by omega)]
      unfold dot_IQ_code
      rw [dot_acc_eq]

/-- Witness for `corr_std_spec`: constant samples `(1, 2)`, `N = 3`, single
tap `pos = [1]`. -/
theorem corr_std_spec_witness :
    (corr_std (fun _ => ⟨1, 2⟩) (fun _ => ⟨1, 2⟩) 3 [1]).getD 0 (0, 0) =
      ((∑ k ∈ Finset.range (3 - ((([1] : List ℤ).getD 0 0).toNat)),
          (((fun _ => (⟨1, 2⟩ : SdrCpx16)) ((([1] : List ℤ).getD 0 0).toNat + k)).I : ℝ) *
          (((fun _ => (⟨1, 2⟩ : SdrCpx16)) k).I : ℝ)) *
        (1 / ((3 - (([1] : List ℤ).getD 0 0).toNat : ℕ) : ℝ) / CSCALE),
       (∑ k ∈ Finset.range (3 - ((([1] : List ℤ).getD 0 0).toNat)),
          (((fun _ => (⟨1, 2⟩ : SdrCpx16)) ((([1] : List ℤ).getD 0 0).toNat + k)).Q : ℝ) *
          (((fun _ => (⟨1, 2⟩ : SdrCpx16)) k).Q : ℝ)) *
        (1 / ((3 - (([1] : List ℤ).getD 0 0).toNat : ℕ) : ℝ) / CSCALE)) :=
  ((corr_std_spec (fun _ => ⟨1, 2⟩) (fun _ => ⟨1, 2⟩) 3 [1]
    (by intro p hp; fin_cases hp; decide)).2 0 (by norm_num)).1 (by decide)

/-!
## FFT plan cache and FFT correlator (C3)
-/

theorem gfp_scan_full (N : ℕ) :
    ∀ sizes : List ℕ, (∀ sz ∈ sizes, sz ≠ 0 ∧ sz ≠ N) →
    gfp_scan N sizes = (false, sizes) := by
  intro sizes
  induction sizes with
  | nil => intro _; rfl
  | cons sz rest ih =>
    intro h
    obtain ⟨h0, hN⟩ := h sz (List.mem_cons_self sz rest)
    unfold gfp_scan
    rw [if_neg h0, if_neg hN]
    rw [ih fun s hs => h s (List.mem_cons_of_mem sz hs)]

theorem gfp_scan_found (N : ℕ) :
    ∀ sizes : List ℕ, (∃ sz ∈ sizes, sz = 0 ∨ sz = N) →
    (gfp_scan N sizes).1 = true := by
  intro sizes
  induction sizes with
  | nil => intro h; simp at h
  | cons sz rest ih =>
    intro h
    unfold gfp_scan
    by_cases hsz : (if sz = 0 then N else sz) = N
    · rw [if_pos hsz]
    · rw [if_neg hsz]
      apply ih
      obtain ⟨w, hw, hwval⟩ := h
      rcases List.mem_cons.mp hw with hhead | htail
      · subst hhead
        exfalso
        rcases hwval with h0 | hN
        · rw [if_pos h0] at hsz
          exact hsz rfl
        · by_cases hz : w = 0
          · rw [if_pos hz] at hsz
            exact hsz rfl
          · rw [if_neg hz] at hsz
            exact hsz hN
      · exact ⟨w, htail, hwval⟩

/-- Claim C3: When the FFT plan cache is full (all `MAX_FFTW_PLAN = 32` slots
occupied by lengths different from `N`), `corr_fft` leaves the caller's
output array and the cache completely unmodified; when a plan for `N` exists
or an empty slot remains, it computes and writes all `N` output cells as
`ifft(fft(x)·code_fft)/N²` with `x[i] = (IQ[i].I/CSCALE, IQ[i].Q/CSCALE)`. -/
theorem corr_fft_cache_spec (IQ : ℕ → SdrCpx16) (code_fft : ℕ → ℂ) (N : ℕ)
    (corr : ℕ → ℂ) (sizes : List ℕ) :
    (sizes.length = MAX_FFTW_PLAN → (∀ sz ∈ sizes, sz ≠ 0 ∧ sz ≠ N) →
      corr_fft IQ code_fft N corr sizes = (corr, sizes)) ∧
    ((∃ sz ∈ sizes, sz = 0 ∨ sz = N) →
      ∀ j < N, (corr_fft IQ code_fft N corr sizes).1 j =
        idft N (fun k => dft N (fun i => Complex.ofReal (((IQ i).I : ℝ) / CSCALE) +
          Complex.ofReal (((IQ i).Q : ℝ) / CSCALE) * Complex.I) k * code_fft k *
          (1 / (N : ℂ) ^ 2)) j) := by
  constructor
  · intro _hlen hfull
    unfold corr_fft get_fftw_plan
    rw [gfp_scan_full N sizes hfull]
    rfl
  · intro hfound j hj
    have hflag : (get_fftw_plan N sizes).1 = true := gfp_scan_found N sizes hfound
    unfold corr_fft
    dsimp only
    rw [if_neg (by rw [hflag]; simp)]
    dsimp only
    rw [if_pos hj]

/-- Witness for `corr_fft_cache_spec`: a full 32-slot cache holding lengths
`1..32`, none equal to the requested `N = 100`; the call is a no-op. -/
theorem corr_fft_cache_spec_witness :
    corr_fft (fun _ => ⟨1, 0⟩) (fun _ => 0) 100 (fun _ => 0)
      ((List.range 32).map fun i => i + 1) =
    ((fun _ => 0), (List.range 32).map fun i => i + 1) :=
  (corr_fft_cache_spec (fun _ => ⟨1, 0⟩) (fun _ => 0) 100 (fun _ => 0)
    ((List.range 32).map fun i => i + 1)).1 (by decide) (by decide)

/-!
## Fine Doppler (C7, C8)
-/

theorem lagrange3_eval (x0 x1 x2 y0 y1 y2 : ℝ) (h01 : x0 - x1 ≠ 0) (h02 : x0 - x2 ≠ 0)
    (h10 : x1 - x0 ≠ 0) (h12 : x1 - x2 ≠ 0) (h20 : x2 - x0 ≠ 0) (h21 : x2 - x1 ≠ 0) :
    ∀ t yt : ℝ, (t = x0 ∧ yt = y0) ∨ (t = x1 ∧ yt = y1) ∨ (t = x2 ∧ yt = y2) →
    (y0 * x1 * x2 / ((x0 - x1) * (x0 - x2)) + y1 * x0 * x2 / ((x1 - x0) * (x1 - x2)) +
        y2 * x0 * x1 / ((x2 - x0) * (x2 - x1))) +
      -(y0 * (x1 + x2) / ((x0 - x1) * (x0 - x2)) + y1 * (x0 + x2) / ((x1 - x0) * (x1 - x2)) +
        y2 * (x0 + x1) / ((x2 - x0) * (x2 - x1))) * t +
      (y0 / ((x0 - x1) * (x0 - x2)) + y1 / ((x1 - x0) * (x1 - x2)) +
        y2 / ((x2 - x0) * (x2 - x1))) * t ^ 2 = yt := by
  intro t yt ht
  rcases ht with ⟨rfl, rfl⟩ | ⟨rfl, rfl⟩ | ⟨rfl, rfl⟩
  · field_simp
    ring
  · field_simp
    ring
  · field_simp
    ring

/-- Claim C7: `sdr_fine_dop` returns `fds[ix_doppler]` unchanged at either
endpoint; otherwise it fits the quadratic `p0 + p1·x + p2·x²` through the
three points `(fds[ix_dop+k], P[ix_dop+k][ix_code])`, `k ∈ {−1, 0, 1}`, and
returns the vertex `−p1/(2·p2)`, falling back to `fds[ix_doppler]` when the
fit is degenerate. -/
theorem sdr_fine_dop_spec (P : ℕ → ℝ) (N : ℕ) (fds : ℕ → ℝ) (len_fds : ℕ) (ix : ℕ × ℕ) :
    ((ix.1 = 0 ∨ ix.1 = len_fds - 1) → sdr_fine_dop P N fds len_fds ix = fds ix.1) ∧
    (¬(ix.1 = 0 ∨ ix.1 = len_fds - 1) →
      ((fds (ix.1 - 1 + 1) - fds (ix.1 - 1 + 0)) * (fds (ix.1 - 1 + 2) - fds (ix.1 - 1 + 0)) *
          (fds (ix.1 - 1 + 2) - fds (ix.1 - 1 + 1)) = 0 →
        sdr_fine_dop P N fds len_fds ix = fds ix.1) ∧
      ((fds (ix.1 - 1 + 1) - fds (ix.1 - 1 + 0)) * (fds (ix.1 - 1 + 2) - fds (ix.1 - 1 + 0)) *
          (fds (ix.1 - 1 + 2) - fds (ix.1 - 1 + 1)) ≠ 0 →
        ∃ p0 p1 p2 : ℝ,
          (∀ k < 3, p0 + p1 * fds (ix.1 - 1 + k) + p2 * fds (ix.1 - 1 + k) ^ 2 =
            P ((ix.1 - 1 + k) * N + ix.2)) ∧
          sdr_fine_dop P N fds len_fds ix = -p1 / (2 * p2))) := by
  constructor
  · intro h
    unfold sdr_fine_dop
    rw [if_pos h]
  · intro h
    constructor
    · intro hdet
      unfold sdr_fine_dop
      rw [if_neg h]
      unfold poly_fit
      rw [if_pos hdet]
    · intro hdet
      unfold sdr_fine_dop
      rw [if_neg h]
      unfold poly_fit
      rw [if_neg hdet]
      dsimp only
      have h10 : fds (ix.1 - 1 + 1) - fds (ix.1 - 1 + 0) ≠ 0 := fun hz => hdet (by rw [hz]; ring)
      have h20 : fds (ix.1 - 1 + 2) - fds (ix.1 - 1 + 0) ≠ 0 := fun hz => hdet (by rw [hz]; ring)
      have h21 : fds (ix.1 - 1 + 2) - fds (ix.1 - 1 + 1) ≠ 0 := fun hz => hdet (by rw [hz]; ring)
      have h01 : fds (ix.1 - 1 + 0) - fds (ix.1 - 1 + 1) ≠ 0 := fun hz => h10 (by linarith [sub_eq_zero.mp hz])
      have h02 : fds (ix.1 - 1 + 0) - fds (ix.1 - 1 + 2) ≠ 0 := fun hz => h20 (by linarith [sub_eq_zero.mp hz])
      have h12 : fds (ix.1 - 1 + 1) - fds (ix.1 - 1 + 2) ≠ 0 := fun hz => h21 (by linarith [sub_eq_zero.mp hz])
      refine ⟨P ((ix.1 - 1 + 0) * N + ix.2) * fds (ix.1 - 1 + 1) * fds (ix.1 - 1 + 2) /
            ((fds (ix.1 - 1 + 0) - fds (ix.1 - 1 + 1)) * (fds (ix.1 - 1 + 0) - fds (ix.1 - 1 + 2))) +
          P ((ix.1 - 1 + 1) * N + ix.2) * fds (ix.1 - 1 + 0) * fds (ix.1 - 1 + 2) /
            ((fds (ix.1 - 1 + 1) - fds (ix.1 - 1 + 0)) * (fds (ix.1 - 1 + 1) - fds (ix.1 - 1 + 2))) +
          P ((ix.1 - 1 + 2) * N + ix.2) * fds (ix.1 - 1 + 0) * fds (ix.1 - 1 + 1) /
            ((fds (ix.1 - 1 + 2) - fds (ix.1 - 1 + 0)) * (fds (ix.1 - 1 + 2) - fds (ix.1 - 1 + 1))),
        -(P ((ix.1 - 1 + 0) * N + ix.2) * (fds (ix.1 - 1 + 1) + fds (ix.1 - 1 + 2)) /
            ((fds (ix.1 - 1 + 0) - fds (ix.1 - 1 + 1)) * (fds (ix.1 - 1 + 0) - fds (ix.1 - 1 + 2))) +
          P ((ix.1 - 1 + 1) * N + ix.2) * (fds (ix.1 - 1 + 0) + fds (ix.1 - 1 + 2)) /
            ((fds (ix.1 - 1 + 1) - fds (ix.1 - 1 + 0)) * (fds (ix.1 - 1 + 1) - fds (ix.1 - 1 + 2))) +
          P ((ix.1 - 1 + 2) * N + ix.2) * (fds (ix.1 - 1 + 0) + fds (ix.1 - 1 + 1)) /
            ((fds (ix.1 - 1 + 2) - fds (ix.1 - 1 + 0)) * (fds (ix.1 - 1 + 2) - fds (ix.1 - 1 + 1)))),
        P ((ix.1 - 1 + 0) * N + ix.2) /
            ((fds (ix.1 - 1 + 0) - fds (ix.1 - 1 + 1)) * (fds (ix.1 - 1 + 0) - fds (ix.1 - 1 + 2))) +
          P ((ix.1 - 1 + 1) * N + ix.2) /
            ((fds (ix.1 - 1 + 1) - fds (ix.1 - 1 + 0)) * (fds (ix.1 - 1 + 1) - fds (ix.1 - 1 + 2))) +
          P ((ix.1 - 1 + 2) * N + ix.2) /
            ((fds (ix.1 - 1 + 2) - fds (ix.1 - 1 + 0)) * (fds (ix.1 - 1 + 2) - fds (ix.1 - 1 + 1))),
        ?_, rfl⟩
      intro k hk
      have hlag := lagrange3_eval (fds (ix.1 - 1 + 0)) (fds (ix.1 - 1 + 1)) (fds (ix.1 - 1 + 2))
        (P ((ix.1 - 1 + 0) * N + ix.2)) (P ((ix.1 - 1 + 1) * N + ix.2))
        (P ((ix.1 - 1 + 2) * N + ix.2)) h01 h02 h10 h12 h20 h21
      interval_cases k
      · exact hlag _ _ (Or.inl ⟨rfl, rfl⟩)
      · exact hlag _ _ (Or.inr (Or.inl ⟨rfl, rfl⟩))
      · exact hlag _ _ (Or.inr (Or.inr ⟨rfl, rfl⟩))

/-- Witness for `sdr_fine_dop_spec`: at the endpoint `ix_doppler = 0` the
bin value is returned unchanged. -/
theorem sdr_fine_dop_spec_witness :
    sdr_fine_dop P8 1 fds8 3 (0, 0) = fds8 0 :=
  (sdr_fine_dop_spec P8 1 fds8 3 (0, 0)).1 (Or.inl rfl)

theorem fine_dop_example_val : sdr_fine_dop P8 1 fds8 3 (1, 0) = 225 := by
  unfold sdr_fine_dop
  rw [if_neg (by norm_num)]
  unfold poly_fit
  rw [if_neg (by norm_num [fds8])]
  norm_num [fds8, P8]

/-- Claim C8 (counterexample): On the claimed input (powers `{1, 4, 3}` at
bins `{100, 200, 300}` Hz, peak at the middle bin) `sdr_fine_dop` returns
exactly `225` Hz, which is more than 1 Hz away from the claimed
`≈ 237.5` Hz. -/
theorem sdr_fine_dop_example_counterexample :
    sdr_fine_dop P8 1 fds8 3 (1, 0) = 225 ∧
    |sdr_fine_dop P8 1 fds8 3 (1, 0) - 237.5| > 1 := by
  refine ⟨fine_dop_example_val, ?_⟩
  rw [fine_dop_example_val]
  rw [show |(225 : ℝ) - 237.5| = 12.5 from by rw [abs_of_neg (by norm_num)]; norm_num]
  norm_num

/-- Claim C8 (amended): On that input `sdr_fine_dop` returns the analytic
vertex of the quadratic through the three points, `225` Hz (within 1 Hz). -/
theorem sdr_fine_dop_example_amended :
    sdr_fine_dop P8 1 fds8 3 (1, 0) = 225 ∧
    |sdr_fine_dop P8 1 fds8 3 (1, 0) - 225| ≤ 1 := by
  refine ⟨fine_dop_example_val, ?_⟩
  rw [fine_dop_example_val]
  norm_num

end PocketSDR
